import Mathlib

/-!
Verification development for the NAS-Desktop-SSH-Operator repository.

Shallow embedding of the core modules that the specification's claims are
about: shell quoting (`src/jfo/core/quoting.py`), the operation/plan model
(`src/jfo/core/plan.py`, `operations.py`), history/undo reconstruction
(`src/jfo/core/history.py`), the client-side sandbox
(`src/jfo/core/validators.py`), media grouping
(`src/jfo/core/media_grouping.py`), NFO field extraction
(`src/jfo/core/nfo.py`) and the SQLite index updater
(`src/jfo/infra/index_update.py`).

Python strings are modelled as `List Char` where character-level work is
needed (quoting, lexing, POSIX path normalization) and as `String`
elsewhere.  All definitions are executable.
-/

set_option maxRecDepth 8000

namespace JFO

/-! ### Basic character/string helpers shared by several modules -/

/-- ASCII view of Python's default `str.strip()` whitespace set
(space, tab, LF, CR, vertical tab, form feed). -/
def pySpace (c : Char) : Bool :=
  c = ' ' || c = '\t' || c = '\n' || c = '\r' || c = Char.ofNat 0x0b || c = Char.ofNat 0x0c

/-- Python `str.strip()` on a character list. -/
def pyStripL (s : List Char) : List Char :=
  ((s.dropWhile pySpace).reverse.dropWhile pySpace).reverse

/-- Python `str.strip()` on a `String` (ASCII whitespace). -/
def pyStrip (s : String) : String :=
  String.mk (pyStripL s.toList)

/-- Python truthiness of an optional string: `None` and `""` are falsy. -/
def truthyOpt : Option String → Bool
  | none => false
  | some s => s ≠ ""

/-- Python `x or ""` for an optional string. -/
def pyOrStr : Option String → String
  | none => ""
  | some s => s

/-! ### Quoting layer — `src/jfo/core/quoting.py`

`assert_safe_text` rejects NUL and the control characters matched by
`_CONTROL_RE = [\x00-\x08\x0b\x0c\x0e-\x1f\x7f]` (note: the class skips
TAB 0x09, LF 0x0a and CR 0x0d).  `bash_quote` wraps in single quotes,
escaping embedded single quotes with the close/]["']/reopen pattern. -/

/-- Error raised by `assert_safe_text` / `bash_quote` (`QuoteError`). -/
inductive QuoteErr where
  | nulByte (what : String)
  | controlChar (what : String)
deriving DecidableEq, Repr

/-- Membership in the character class of `_CONTROL_RE`:
`[\x00\x01-\x08\x0b\x0c\x0e-\x1f\x7f]`. -/
def controlRe (c : Char) : Bool :=
  c.toNat ≤ 0x08 || c.toNat = 0x0b || c.toNat = 0x0c ||
    (0x0e ≤ c.toNat && c.toNat ≤ 0x1f) || c.toNat = 0x7f

/-- `assert_safe_text(value, what=...)`: `some e` models raising `e`,
`none` models returning normally. -/
def assert_safe_text (value : List Char) (what : String) : Option QuoteErr :=
  if value.contains (Char.ofNat 0) then some (.nulByte what)
  else if value.any controlRe then some (.controlChar what)
  else none

/-- The expansion of one input character in
`arg.replace("'", "'\"'\"'")` (single-character pattern, so the Python
`str.replace` acts characterwise). -/
def bqEsc (c : Char) : List Char :=
  if c = '\'' then ['\'', '"', '\'', '"', '\''] else [c]

/-- The successful result of `bash_quote`: single-quote wrap with the
close/escape/reopen pattern for embedded single quotes. -/
def bqRaw (arg : List Char) : List Char :=
  '\'' :: (arg.flatMap bqEsc) ++ ['\'']

/-- `bash_quote(arg)`: `Except.error` models raising `QuoteError`. -/
def bash_quote (arg : List Char) : Except QuoteErr (List Char) :=
  match assert_safe_text arg "path" with
  | some e => .error e
  | none =>
    if arg = [] then .ok ['\'', '\'']
    else .ok (bqRaw arg)

/-! ### Reference POSIX shell-token lexer

Models `shlex.split(line, posix=True)` as used by
`parse_ops_from_script` in `src/jfo/core/history.py`: single quotes are
literal runs, double quotes are literal except that a backslash escapes
`"` and `\`, an unquoted backslash escapes the next character, and
unquoted blanks separate tokens.  `none` models `shlex` raising
`ValueError` on an unterminated quote. -/

/-- Lexer mode: outside quotes, inside `'…'`, inside `"…"`. -/
inductive LexMode where
  | top
  | single
  | double
deriving DecidableEq, Repr

/-- Characters that `shlex` treats as token separators. -/
def lexBlank (c : Char) : Bool :=
  c = ' ' || c = '\t' || c = '\n' || c = '\r'

/-- One pass of the shell-token splitter.  `started` records whether the
current token has begun (so `''` yields an empty token), `cur` is the
token accumulated so far, `acc` the finished tokens. -/
def shlexAux : LexMode → Bool → List Char → List Char → List (List Char) →
    Option (List (List Char))
  | .top, started, cur, [], acc =>
    some (acc ++ if started then [cur] else [])
  | .top, started, cur, c :: cs, acc =>
    if lexBlank c then
      shlexAux .top false [] cs (acc ++ if started then [cur] else [])
    else if c = '\'' then shlexAux .single true cur cs acc
    else if c = '"' then shlexAux .double true cur cs acc
    else if c = '\\' then
      match cs with
      | [] => shlexAux .top true cur [] acc
      | d :: ds => shlexAux .top true (cur ++ [d]) ds acc
    else shlexAux .top true (cur ++ [c]) cs acc
  | .single, _, _, [], _ => none
  | .single, st, cur, c :: cs, acc =>
    if c = '\'' then shlexAux .top true cur cs acc
    else shlexAux .single st (cur ++ [c]) cs acc
  | .double, _, _, [], _ => none
  | .double, st, cur, c :: cs, acc =>
    if c = '"' then shlexAux .top true cur cs acc
    else if c = '\\' then
      match cs with
      | [] => none
      | d :: ds =>
        if d = '"' || d = '\\' then shlexAux .double st (cur ++ [d]) ds acc
        else shlexAux .double st (cur ++ [c]) (d :: ds) acc
    else shlexAux .double st (cur ++ [c]) cs acc
termination_by _ _ _ input _ => input.length
decreasing_by all_goals simp_arith

/-- Unfolding lemma: a single quote in `.single` mode closes the quote. -/
theorem shlexAux_single_close (st : Bool) (cur l : List Char) (acc : List (List Char)) :
    shlexAux .single st cur ('\'' :: l) acc = shlexAux .top true cur l acc := by
  simp [shlexAux]

/-- Unfolding lemma: an ordinary character in `.single` mode is literal. -/
theorem shlexAux_single_lit (st : Bool) (c : Char) (h : c ≠ '\'')
    (cur l : List Char) (acc : List (List Char)) :
    shlexAux .single st cur (c :: l) acc = shlexAux .single st (cur ++ [c]) l acc := by
  simp [shlexAux, h]

/-- `shlex.split(s, posix=True)` restricted to the constructs above. -/
def shlexSplit (s : List Char) : Option (List (List Char)) :=
  shlexAux .top false [] s []

/-- Unfolding lemma: a single quote in `.top` mode opens a quoted run. -/
theorem shlexAux_top_quote (st : Bool) (cur l : List Char) (acc : List (List Char)) :
    shlexAux .top st cur ('\'' :: l) acc = shlexAux .single true cur l acc := by
  cases l <;> simp [shlexAux, lexBlank]

/-- Unfolding lemma: a double quote in `.top` mode opens a quoted run. -/
theorem shlexAux_top_dquote (st : Bool) (cur l : List Char) (acc : List (List Char)) :
    shlexAux .top st cur ('"' :: l) acc = shlexAux .double true cur l acc := by
  cases l <;> simp [shlexAux, lexBlank]

/-- Unfolding lemma: a double quote in `.double` mode closes the run. -/
theorem shlexAux_double_close (st : Bool) (cur l : List Char) (acc : List (List Char)) :
    shlexAux .double st cur ('"' :: l) acc = shlexAux .top true cur l acc := by
  cases l <;> simp [shlexAux]

/-- Unfolding lemma: a single quote inside `"…"` is an ordinary character. -/
theorem shlexAux_double_quote (st : Bool) (cur l : List Char) (acc : List (List Char)) :
    shlexAux .double st cur ('\'' :: l) acc = shlexAux .double st (cur ++ ['\'']) l acc := by
  cases l <;> simp [shlexAux]

/-- Key round-trip step: in `.single` mode, lexing the quote-escaped body
of `s` followed by the closing quote appends exactly `s` to the current
token and returns to `.top` mode. -/
theorem shlexAux_single_bqEsc (s : List Char) : ∀ (cur rest : List Char)
    (acc : List (List Char)),
    shlexAux .single true cur (s.flatMap bqEsc ++ '\'' :: rest) acc =
      shlexAux .top true (cur ++ s) rest acc := by
  induction s with
  | nil =>
    intro cur rest acc
    simp [shlexAux_single_close]
  | cons c cs ih =>
    intro cur rest acc
    by_cases hc : c = '\''
    · subst hc
      have h1 : ('\'' :: cs).flatMap bqEsc ++ '\'' :: rest =
          '\'' :: '"' :: '\'' :: '"' :: '\'' :: (cs.flatMap bqEsc ++ '\'' :: rest) := by
        simp [bqEsc]
      rw [h1, shlexAux_single_close, shlexAux_top_dquote, shlexAux_double_quote,
        shlexAux_double_close, shlexAux_top_quote, ih]
      simp
    · have h1 : (c :: cs).flatMap bqEsc ++ '\'' :: rest =
          c :: (cs.flatMap bqEsc ++ '\'' :: rest) := by
        simp [bqEsc, hc]
      rw [h1, shlexAux_single_lit true c hc, ih]
      simp

/-- Round trip at the top level: `shlexSplit (bqRaw s) = some [s]`. -/
theorem shlexSplit_bqRaw (s : List Char) : shlexSplit (bqRaw s) = some [s] := by
  show shlexAux .top false [] ('\'' :: (s.flatMap bqEsc ++ ['\''])) [] = some [s]
  rw [shlexAux_top_quote]
  rw [show (s.flatMap bqEsc ++ ['\'']) = s.flatMap bqEsc ++ '\'' :: [] from rfl]
  rw [shlexAux_single_bqEsc]
  simp [shlexAux]

/-- Success test for an `Except` value (models "does not raise"). -/
def isOkE {ε α : Type} : Except ε α → Bool
  | .ok _ => true
  | .error _ => false

/-- The control-character set named by the specification's claim:
all of `0x00`–`0x1F` plus `0x7F`. -/
def claimControl (c : Char) : Bool :=
  c.toNat < 0x20 || c.toNat = 0x7f

/-- Every character rejected by `_CONTROL_RE` is in the claim's set. -/
theorem controlRe_le_claimControl (c : Char) (h : controlRe c = true) :
    claimControl c = true := by
  simp only [controlRe, claimControl, Bool.or_eq_true, Bool.and_eq_true,
    decide_eq_true_eq] at h ⊢
  omega

/-- `bash_quote` raises exactly when a `_CONTROL_RE` character (or NUL,
which is in that class) is present. -/
theorem bash_quote_err_iff (arg : List Char) :
    isOkE (bash_quote arg) = false ↔ arg.any controlRe = true := by
  unfold bash_quote assert_safe_text
  by_cases hm : Char.ofNat 0 ∈ arg
  · have hany : arg.any controlRe = true := by
      rw [List.any_eq_true]
      exact ⟨Char.ofNat 0, hm, by decide⟩
    simp [hm, hany, isOkE]
  · by_cases hc : arg.any controlRe = true
    · simp [hm, hc, isOkE]
    · simp only [Bool.not_eq_true] at hc
      by_cases he : arg = [] <;> simp [hm, hc, he, isOkE]

/-- When no `_CONTROL_RE` character is present, `bash_quote` returns the
single-quote wrapping with the close/escape/reopen pattern (for the empty
string this is `''`, since `bqRaw [] = ['\'', '\'']`). -/
theorem bash_quote_ok (arg : List Char) (h : arg.any controlRe = false) :
    bash_quote arg = .ok (bqRaw arg) := by
  have hm : Char.ofNat 0 ∉ arg := by
    intro hx
    have : arg.any controlRe = true := by
      rw [List.any_eq_true]
      exact ⟨Char.ofNat 0, hx, by decide⟩
    rw [this] at h
    exact Bool.noConfusion h
  unfold bash_quote assert_safe_text
  by_cases he : arg = []
  · subst he
    rfl
  · simp [hm, h, he, bqRaw]

/-- C1, corrected: `bash_quote` raises a `QuoteError` exactly when the
input contains NUL or a character of the class
`{0x01–0x08, 0x0B, 0x0C, 0x0E–0x1F, 0x7F}` (TAB, LF and CR are allowed,
contrary to the claim's "0x00–0x1F"); every other string is returned
wrapped in single quotes with each embedded single quote escaped by the
close-quote/double-quoted-quote/reopen pattern, and `""` encodes as `''`. -/
theorem claim_C1 (arg : List Char) :
    (isOkE (bash_quote arg) = false ↔ arg.any controlRe = true) ∧
    (arg.any controlRe = false → bash_quote arg = .ok (bqRaw arg)) :=
  ⟨bash_quote_err_iff arg, bash_quote_ok arg⟩

/-- C1 witness: concrete application of `claim_C1` at `"a'b"`. -/
theorem claim_C1_witness :
    ("a'b".toList.any controlRe = false) ∧
      bash_quote "a'b".toList = .ok (bqRaw "a'b".toList) :=
  ⟨by decide, (claim_C1 "a'b".toList).2 (by decide)⟩

/-- C1 counterexample: the TAB character is an ASCII control character in
`0x00`–`0x1F`, yet `bash_quote "\t"` does not raise — refuting the
claim's "raises iff the string contains any control character in
0x00–0x1F or 0x7F". -/
theorem claim_C1_counterexample :
    ("\t".toList.any claimControl = true) ∧ isOkE (bash_quote "\t".toList) = true := by
  constructor
  · decide
  · decide

/-- C2 (confirmed): for every string without control characters
(0x00–0x1F, 0x7F), `bash_quote` succeeds and the reference POSIX
shell-token lexer decodes its output back to exactly the single token
`s`. -/
theorem claim_C2 (s : List Char) (h : s.any claimControl = false) :
    bash_quote s = .ok (bqRaw s) ∧ shlexSplit (bqRaw s) = some [s] := by
  refine ⟨bash_quote_ok s ?_, shlexSplit_bqRaw s⟩
  by_contra hx
  simp only [Bool.not_eq_false, List.any_eq_true] at hx
  obtain ⟨c, hmem, hc⟩ := hx
  have : s.any claimControl = true := by
    rw [List.any_eq_true]
    exact ⟨c, hmem, controlRe_le_claimControl c hc⟩
  rw [this] at h
  exact Bool.noConfusion h

/-- C2 witness: concrete application of `claim_C2` at `"a'b c"`. -/
theorem claim_C2_witness :
    ("a'b c".toList.any claimControl = false) ∧
      (bash_quote "a'b c".toList = .ok (bqRaw "a'b c".toList) ∧
        shlexSplit (bqRaw "a'b c".toList) = some ["a'b c".toList]) :=
  ⟨by decide, claim_C2 "a'b c".toList (by decide)⟩

/-! ### Operation & Plan model — `src/jfo/core/operations.py`, `plan.py`

`Operation` objects are modelled as values (Python mutates them in
place; every mutation below is expressed as a rebuild). -/

/-- `OperationKind` (a `str`-valued enum). -/
inductive OperationKind where
  | mkdir
  | move
  | rename
  | link
  | copy
deriving DecidableEq, Repr

/-- The `.value` string of each enum member. -/
def OperationKind.value : OperationKind → String
  | .mkdir => "mkdir"
  | .move => "mv"
  | .rename => "rename"
  | .link => "ln"
  | .copy => "cp"

/-- The `Operation` dataclass. -/
structure Operation where
  kind : OperationKind
  src : Option String := none
  dst : Option String := none
  detail : String := ""
  selected : Bool := true
  warning : String := ""
  op_id : String := ""
deriving DecidableEq, Repr

/-- The `Plan` dataclass. -/
structure Plan where
  title : String
  operations : List Operation := []
  warnings : List String := []
deriving DecidableEq, Repr

/-- `Plan.selected_operations()`. -/
def Plan.selected_operations (p : Plan) : List Operation :=
  p.operations.filter (·.selected)

/-- The destination under which `detect_destination_collisions` groups an
operation: `none` when `op.dst` is `None` or `""` (Python `if not op.dst:
continue`). -/
def opCollDst (op : Operation) : Option String :=
  match op.dst with
  | none => none
  | some d => if d = "" then none else some d

/-- The (multi)list of grouping destinations of the selected operations,
in plan order. -/
def Plan.collDsts (p : Plan) : List String :=
  p.selected_operations.filterMap opCollDst

/-- First-occurrence deduplication (Python `dict` key order). -/
def firstDedupAux : List String → List String → List String
  | _, [] => []
  | seen, x :: xs =>
    if x ∈ seen then firstDedupAux seen xs
    else x :: firstDedupAux (x :: seen) xs

/-- First-occurrence deduplication of a string list. -/
def firstDedup (l : List String) : List String := firstDedupAux [] l

/-- The key set of `Plan.detect_destination_collisions()`: destinations
targeted by at least two selected operations, in first-occurrence
order. -/
def Plan.collisionKeys (p : Plan) : List String :=
  (firstDedup p.collDsts).filter (fun d => 2 ≤ p.collDsts.count d)

/-- The per-operation collision message. -/
def collisionMsg (d : String) : String :=
  "Collision: multiple ops target " ++ d

/-- `Plan.apply_collision_warnings()` as a plan transformer: each
operation grouped under a colliding destination gets the collision
message appended to its `warning` (with `"; "` when a warning already
exists), and one summary line is appended to the plan's warnings when
any collision was found. -/
def Plan.apply_collision_warnings (p : Plan) : Plan :=
  let keys := p.collisionKeys
  let ops := p.operations.map (fun op =>
    match op.dst with
    | none => op
    | some d =>
      if op.selected = true ∧ d ∈ keys then
        { op with warning :=
            (if op.warning = "" then "" else op.warning ++ "; ") ++ collisionMsg d }
      else op)
  let ws := if keys = [] then p.warnings
    else p.warnings ++
      [toString keys.length ++ " destination collision(s) detected inside the plan."]
  { p with operations := ops, warnings := ws }

/-- `Plan.add_warning(msg)`: append unless already present. -/
def Plan.add_warning (p : Plan) (msg : String) : Plan :=
  if msg ∈ p.warnings then p else { p with warnings := p.warnings ++ [msg] }

/-- Membership in `firstDedupAux seen l`. -/
theorem mem_firstDedupAux (x : String) : ∀ (l seen : List String),
    x ∈ firstDedupAux seen l ↔ (x ∈ l ∧ x ∉ seen) := by
  intro l
  induction l with
  | nil => intro seen; simp [firstDedupAux]
  | cons y ys ih =>
    intro seen
    by_cases hy : y ∈ seen
    · rw [firstDedupAux, if_pos hy, ih seen]
      constructor
      · rintro ⟨h1, h2⟩
        exact ⟨List.mem_cons_of_mem y h1, h2⟩
      · rintro ⟨h1, h2⟩
        rcases List.mem_cons.mp h1 with h | h
        · exact absurd (h ▸ hy) h2
        · exact ⟨h, h2⟩
    · rw [firstDedupAux, if_neg hy]
      by_cases hx : x = y
      · subst hx
        simp [hy]
      · simp only [List.mem_cons, ih (y :: seen)]
        constructor
        · rintro (h | ⟨h1, h2⟩)
          · exact absurd h hx
          · exact ⟨Or.inr h1, fun hs => h2 (Or.inr hs)⟩
        · rintro ⟨h | h, h2⟩
          · exact absurd h hx
          · exact Or.inr ⟨h, fun hs => by
              rcases hs with h' | h'
              · exact hx h'
              · exact h2 h'⟩

/-- Membership in `firstDedup`. -/
theorem mem_firstDedup (x : String) (l : List String) :
    x ∈ firstDedup l ↔ x ∈ l := by
  rw [firstDedup, mem_firstDedupAux]
  simp

/-- Projection of an operation to everything except `warning`/`op_id`. -/
def proj5 (op : Operation) : OperationKind × Option String × Option String × String × Bool :=
  (op.kind, op.src, op.dst, op.detail, op.selected)

/-- `apply_collision_warnings` rewrites each operation's `warning` only:
`kind`, `src`, `dst`, `detail`, `selected` and order are untouched. -/
theorem apply_collision_warnings_proj (p : Plan) :
    (p.apply_collision_warnings).operations.map proj5 =
      p.operations.map proj5 := by
  rw [Plan.apply_collision_warnings]
  simp only [List.map_map]
  apply List.map_congr_left
  intro op _
  simp only [Function.comp_apply]
  cases hd : op.dst with
  | none => simp [proj5, hd]
  | some d =>
    by_cases hc : op.selected = true ∧ d ∈ p.collisionKeys <;> simp [proj5, hc, hd]

/-- `opCollDst` only looks at the `dst` field. -/
theorem opCollDst_congr (a b : Operation) (h : a.dst = b.dst) :
    opCollDst a = opCollDst b := by
  rw [opCollDst, opCollDst, h]

/-- A map that preserves `selected` and `dst` preserves the grouping
destination list. -/
theorem filterMap_collDst_map (f : Operation → Operation)
    (hf : ∀ op, (f op).selected = op.selected ∧ (f op).dst = op.dst)
    (l : List Operation) :
    ((l.map f).filter (·.selected)).filterMap opCollDst =
      (l.filter (·.selected)).filterMap opCollDst := by
  induction l with
  | nil => rfl
  | cons op ops ih =>
    simp only [List.map_cons, List.filter_cons, (hf op).1]
    cases hs : op.selected
    · simpa using ih
    · simp only [if_pos trivial, List.filterMap_cons,
        opCollDst_congr (f op) op (hf op).2]
      rw [ih]

/-- The grouping destinations are unchanged by `apply_collision_warnings`. -/
theorem apply_collision_warnings_collDsts (p : Plan) :
    (p.apply_collision_warnings).collDsts = p.collDsts := by
  rw [Plan.collDsts, Plan.collDsts, Plan.selected_operations, Plan.selected_operations,
    Plan.apply_collision_warnings]
  apply filterMap_collDst_map
  intro op
  cases hd : op.dst with
  | none => simp [hd]
  | some d =>
    by_cases hc : op.selected = true ∧ d ∈ p.collisionKeys <;> simp [hc, hd]

/-- A nonempty suffix makes a string concatenation nonempty. -/
theorem append_ne_empty_of_right (a b : String) (hb : b ≠ "") : a ++ b ≠ "" := by
  intro h
  apply hb
  have := congrArg String.length h
  rw [String.length_append, show ("" : String).length = 0 from rfl] at this
  have hb0 : b.length = 0 := by omega
  cases b with
  | mk l =>
    cases l with
    | nil => rfl
    | cons c cs => simp [String.length] at hb0

/-- C3, corrected (first half of the claim): after
`apply_collision_warnings()`, every operation that shares a selected,
non-empty destination with at least one other selected operation carries
a non-empty warning. -/
theorem claim_C3 (p : Plan) (op : Operation)
    (hmem : op ∈ (p.apply_collision_warnings).operations)
    (hsel : op.selected = true) (d : String) (hdst : op.dst = some d)
    (hne : d ≠ "") (hcol : 2 ≤ (p.apply_collision_warnings).collDsts.count d) :
    op.warning ≠ "" := by
  rw [apply_collision_warnings_collDsts] at hcol
  rw [Plan.apply_collision_warnings] at hmem
  simp only [List.mem_map] at hmem
  obtain ⟨op0, hop0, heq⟩ := hmem
  have hkey : d ∈ p.collisionKeys := by
    rw [Plan.collisionKeys, List.mem_filter]
    refine ⟨(mem_firstDedup d _).mpr ?_, by simpa using hcol⟩
    exact List.count_pos_iff.mp (by omega)
  split at heq
  · -- `op0.dst = none`: the operation is returned unchanged
    rename_i hd0
    rw [← heq, hd0] at hdst
    exact Option.noConfusion hdst
  · rename_i d0 hd0
    split at heq
    · -- colliding branch: the warning was appended
      rw [← heq]
      simp only
      exact append_ne_empty_of_right _ _ (by
        rw [collisionMsg]
        intro hmsg
        have := congrArg String.length hmsg
        rw [String.length_append, show ("" : String).length = 0 from rfl,
          show ("Collision: multiple ops target " : String).length = 31 from rfl] at this
        omega)
    · -- non-colliding branch contradicts the collision hypothesis
      rename_i hc
      rw [← heq] at hdst hsel
      rw [hd0] at hdst
      have hdd : d0 = d := Option.some.inj hdst
      exact absurd ⟨hsel, hdd ▸ hkey⟩ hc

/-- A two-operation plan in which both selected operations target `/x`. -/
def c3plan : Plan :=
  { title := "t",
    operations := [
      { kind := .move, src := some "/a", dst := some "/x" },
      { kind := .move, src := some "/b", dst := some "/x" }] }

/-- The first operation of `c3plan` after one `apply_collision_warnings`. -/
def c3resOp : Operation :=
  { kind := .move, src := some "/a", dst := some "/x",
    warning := "Collision: multiple ops target /x" }

/-- C3 witness: concrete application of `claim_C3` to `c3plan`. -/
theorem claim_C3_witness : c3resOp.warning ≠ "" :=
  claim_C3 c3plan c3resOp (by decide) (by decide) "/x" (by decide) (by decide)
    (by decide)

/-- C3 counterexample: calling `apply_collision_warnings()` twice in
succession duplicates, verbatim, both the plan-level summary warning and
each colliding operation's collision message — refuting the claim's "no
warning text is duplicated verbatim ... if the method is called twice in
succession on the same plan state". -/
theorem claim_C3_counterexample :
    ((c3plan.apply_collision_warnings).apply_collision_warnings).warnings =
      ["1 destination collision(s) detected inside the plan.",
        "1 destination collision(s) detected inside the plan."] ∧
    ((c3plan.apply_collision_warnings).apply_collision_warnings).operations.map
        (fun op => op.warning) =
      ["Collision: multiple ops target /x; Collision: multiple ops target /x",
        "Collision: multiple ops target /x; Collision: multiple ops target /x"] := by
  constructor
  · decide
  · decide

/-! ### History / undo — `src/jfo/core/history.py` -/

/-- `Plan.extend(ops)`. -/
def Plan.extend (p : Plan) (ops : List Operation) : Plan :=
  { p with operations := p.operations ++ ops }

/-- Python `str.splitlines()` terminators (ASCII subset used here:
`\n`, `\r`, `\v`, `\f`; `\r\n` is handled as one terminator). -/
def lineTerm (c : Char) : Bool :=
  c = '\n' || c = '\r' || c = Char.ofNat 0x0b || c = Char.ofNat 0x0c

/-- Worker for `splitlines`: accumulates the current line. -/
def splitlinesGo (cur : List Char) : List Char → List (List Char)
  | [] => [cur]
  | '\r' :: '\n' :: rest =>
    cur :: (if rest = [] then [] else splitlinesGo [] rest)
  | c :: rest =>
    if lineTerm c then cur :: (if rest = [] then [] else splitlinesGo [] rest)
    else splitlinesGo (cur ++ [c]) rest

/-- Python `str.splitlines()` (no kept terminators, `"" → []`). -/
def splitlines (s : List Char) : List (List Char) :=
  if s = [] then [] else splitlinesGo [] s

/-- `parse_ops_from_script(script)`: best-effort parse of the generated
helper calls `safe_mv SRC DST`, `safe_ln SRC DST`, `safe_cp SRC DST`,
`safe_mkdir DIR` via the POSIX shell-token lexer. -/
def parse_ops_from_script (script : String) : List Operation :=
  (splitlines script.toList).flatMap (fun raw_line =>
    let line := pyStripL raw_line
    if line = [] then []
    else if "#".toList.isPrefixOf line then []
    else if ¬("safe_".toList.isPrefixOf line ∨ "run ".toList.isPrefixOf line) then []
    else
      match shlexSplit line with
      | none => []
      | some [] => []
      | some (cmd :: args) =>
        if cmd = "safe_mv".toList then
          match args with
          | a :: b :: _ =>
            [{ kind := .move, src := some (String.mk a), dst := some (String.mk b),
               selected := true }]
          | _ => []
        else if cmd = "safe_ln".toList then
          match args with
          | a :: b :: _ =>
            [{ kind := .link, src := some (String.mk a), dst := some (String.mk b),
               selected := true }]
          | _ => []
        else if cmd = "safe_cp".toList then
          match args with
          | a :: b :: _ =>
            [{ kind := .copy, src := some (String.mk a), dst := some (String.mk b),
               selected := true }]
          | _ => []
        else if cmd = "safe_mkdir".toList then
          match args with
          | a :: _ =>
            [{ kind := .mkdir, src := none, dst := some (String.mk a),
               selected := true }]
          | _ => []
        else [])

/-- One serialized operation inside `journal.jsonl` (`ops` entry).  The
fields are optional to model `dict.get`. -/
structure JItem where
  kind : Option String := none
  src : Option String := none
  dst : Option String := none
  detail : Option String := none
  warning : Option String := none
deriving DecidableEq, Repr

/-- Serialization of one operation (body of `ops_to_journal_dicts`). -/
def opToJournalDict (op : Operation) : JItem :=
  { kind := some op.kind.value, src := op.src, dst := op.dst,
    detail := some op.detail, warning := some op.warning }

/-- `ops_to_journal_dicts(ops)`. -/
def ops_to_journal_dicts (ops : List Operation) : List JItem :=
  ops.map opToJournalDict

/-- The journal-record fields consulted by `ops_from_journal`. -/
structure JRecord where
  ops : Option (List JItem) := none
  script : Option String := none

/-- `OperationKind(kind_s)`: lookup of an enum member by value;
`none` models the raised `ValueError`. -/
def kindOfValue (s : String) : Option OperationKind :=
  if s = "mkdir" then some .mkdir
  else if s = "mv" then some .move
  else if s = "rename" then some .rename
  else if s = "ln" then some .link
  else if s = "cp" then some .copy
  else none

/-- Decoding of one journal item (loop body of `ops_from_journal`);
`none` models `continue`. -/
def jitemToOp (item : JItem) : Option Operation :=
  let kind_s := pyOrStr item.kind
  let k :=
    match kindOfValue kind_s with
    | some k => some k
    | none =>
      -- best-effort mapping from script-derived kinds
      if kind_s = "mv" then some OperationKind.move
      else if kind_s = "mkdir" then some OperationKind.mkdir
      else if kind_s = "ln" then some OperationKind.link
      else if kind_s = "cp" then some OperationKind.copy
      else none
  match k with
  | none => none
  | some kind =>
    some { kind := kind, src := item.src, dst := item.dst,
           detail := pyOrStr item.detail, warning := pyOrStr item.warning,
           selected := true }

/-- `ops_from_journal(record)`: prefer the structured non-empty `ops`
list; otherwise fall back to parsing the stored script. -/
def ops_from_journal (record : JRecord) : List Operation :=
  match record.ops with
  | some raw =>
    if raw ≠ [] then raw.filterMap jitemToOp
    else parse_ops_from_script (pyOrStr record.script)
  | none => parse_ops_from_script (pyOrStr record.script)

/-- Loop body of `build_undo_plan`: produces the undo operations and the
skip messages contributed by each executed operation, in iteration
order over the (already reversed) list. -/
def undoLoop (only_mv_rename : Bool) : List Operation → List Operation × List String
  | [] => ([], [])
  | op :: rest =>
    let acc := undoLoop only_mv_rename rest
    if op.kind = .move ∨ op.kind = .rename then
      if truthyOpt op.src && truthyOpt op.dst then
        ({ kind := .move, src := op.dst, dst := op.src,
           detail := pyStrip ("UNDO " ++ op.detail), selected := true } :: acc.1, acc.2)
      else acc
    else if op.kind = .mkdir then
      -- We do not remove directories automatically.
      acc
    else if only_mv_rename then
      (acc.1, ("Skip undo for " ++ op.kind.value ++ ": " ++ pyOrStr op.src ++ " -> " ++
        pyOrStr op.dst) :: acc.2)
    else
      (acc.1, ("Unsupported undo op: " ++ op.kind.value) :: acc.2)

/-- `build_undo_plan(executed_ops, title=..., only_mv_rename=...)`. -/
def build_undo_plan (executed_ops : List Operation) (title : String := "Undo")
    (only_mv_rename : Bool := true) : Plan × List String :=
  let r := undoLoop only_mv_rename executed_ops.reverse
  let plan := Plan.mk title [] []
  let plan := plan.extend r.1
  let plan := plan.apply_collision_warnings
  let plan := r.2.foldl Plan.add_warning plan
  (plan, r.2)

/-- The claim's description of the inverse emitted for one executed
operation: a move/rename with both endpoints present yields exactly one
inverse move with swapped endpoints, an "UNDO"-marked detail, selected;
anything else yields nothing. -/
def undoInvSpec (op : Operation) :
    Option (OperationKind × Option String × Option String × String × Bool) :=
  if (op.kind = .move ∨ op.kind = .rename) ∧
      truthyOpt op.src = true ∧ truthyOpt op.dst = true then
    some (.move, op.dst, op.src, pyStrip ("UNDO " ++ op.detail), true)
  else none

/-- The skip message contributed by one executed operation: move/rename
and mkdir are never recorded; other kinds get the mode-dependent
message. -/
def undoSkipSpec (only_mv_rename : Bool) (op : Operation) : Option String :=
  if op.kind = .move ∨ op.kind = .rename then none
  else if op.kind = .mkdir then none
  else if only_mv_rename then
    some ("Skip undo for " ++ op.kind.value ++ ": " ++ pyOrStr op.src ++ " -> " ++
      pyOrStr op.dst)
  else some ("Unsupported undo op: " ++ op.kind.value)

/-- The undo operations produced by the loop are exactly the claim's
per-operation inverses, in iteration order. -/
theorem undoLoop_fst_proj (only : Bool) (l : List Operation) :
    (undoLoop only l).1.map proj5 = l.filterMap undoInvSpec := by
  induction l with
  | nil => rfl
  | cons op rest ih =>
    rw [undoLoop, List.filterMap_cons]
    by_cases hmv : op.kind = .move ∨ op.kind = .rename
    · rw [if_pos hmv]
      cases htr : (truthyOpt op.src && truthyOpt op.dst) with
      | true =>
        have h12 := Bool.and_eq_true_iff.mp htr
        rw [show undoInvSpec op = some (.move, op.dst, op.src,
            pyStrip ("UNDO " ++ op.detail), true) from
          if_pos ⟨hmv, h12.1, h12.2⟩]
        simp [ih, proj5]
      | false =>
        have : ¬(truthyOpt op.src = true ∧ truthyOpt op.dst = true) := by
          intro ⟨h1, h2⟩
          rw [h1, h2] at htr
          exact Bool.noConfusion htr
        rw [show undoInvSpec op = none from
          if_neg (fun hh => this ⟨hh.2.1, hh.2.2⟩)]
        simpa using ih
    · rw [if_neg hmv,
        show undoInvSpec op = none from if_neg (fun hh => hmv hh.1)]
      by_cases hmk : op.kind = .mkdir
      · rw [if_pos hmk]
        simpa using ih
      · rw [if_neg hmk]
        cases only <;> simpa using ih

/-- The skip messages produced by the loop are exactly the claim's
per-operation skip messages, in iteration order. -/
theorem undoLoop_snd (only : Bool) (l : List Operation) :
    (undoLoop only l).2 = l.filterMap (undoSkipSpec only) := by
  induction l with
  | nil => rfl
  | cons op rest ih =>
    rw [undoLoop, List.filterMap_cons, undoSkipSpec]
    by_cases hmv : op.kind = .move ∨ op.kind = .rename
    · rw [if_pos hmv, if_pos hmv]
      cases htr : (truthyOpt op.src && truthyOpt op.dst) <;> simpa using ih
    · rw [if_neg hmv, if_neg hmv]
      by_cases hmk : op.kind = .mkdir
      · rw [if_pos hmk, if_pos hmk]
        simpa using ih
      · rw [if_neg hmk, if_neg hmk]
        cases only <;> simpa using ih

/-- `add_warning` never touches the operations. -/
theorem add_warning_operations (p : Plan) (m : String) :
    (p.add_warning m).operations = p.operations := by
  rw [Plan.add_warning]
  by_cases h : m ∈ p.warnings <;> simp [h]

/-- Folding `add_warning` never touches the operations. -/
theorem foldl_add_warning_operations (l : List String) : ∀ (p : Plan),
    (l.foldl Plan.add_warning p).operations = p.operations := by
  induction l with
  | nil => intro p; rfl
  | cons m ms ih =>
    intro p
    rw [List.foldl_cons, ih, add_warning_operations]

/-- A message just added is in the warnings. -/
theorem add_warning_mem_self (p : Plan) (m : String) :
    m ∈ (p.add_warning m).warnings := by
  rw [Plan.add_warning]
  by_cases h : m ∈ p.warnings <;> simp [h]

/-- `add_warning` preserves existing warnings. -/
theorem add_warning_mem_mono (p : Plan) (m y : String) (h : m ∈ p.warnings) :
    m ∈ (p.add_warning y).warnings := by
  rw [Plan.add_warning]
  by_cases hy : y ∈ p.warnings <;> simp [hy, h]

/-- Folding `add_warning` preserves existing warnings. -/
theorem foldl_add_warning_mono (l : List String) : ∀ (p : Plan) (m : String),
    m ∈ p.warnings → m ∈ (l.foldl Plan.add_warning p).warnings := by
  induction l with
  | nil => intro p m h; exact h
  | cons y ys ih =>
    intro p m h
    rw [List.foldl_cons]
    exact ih _ m (add_warning_mem_mono p m y h)

/-- Every message in the folded list ends up among the warnings. -/
theorem foldl_add_warning_mem (l : List String) : ∀ (p : Plan) (m : String),
    m ∈ l → m ∈ (l.foldl Plan.add_warning p).warnings := by
  induction l with
  | nil => intro p m h; exact absurd h (List.not_mem_nil m)
  | cons y ys ih =>
    intro p m h
    rw [List.foldl_cons]
    rcases List.mem_cons.mp h with h | h
    · subst h
      exact foldl_add_warning_mono ys _ m (add_warning_mem_self p m)
    · exact ih _ m h

/-- The 3-step swap `[move(/a→/tmp), move(/b→/a), move(/tmp→/b)]`. -/
def swap3ops : List Operation :=
  [{ kind := .move, src := some "/a", dst := some "/tmp" },
   { kind := .move, src := some "/b", dst := some "/a" },
   { kind := .move, src := some "/tmp", dst := some "/b" }]

/-- C4 (confirmed): `build_undo_plan` walks the executed operations in
reverse order and emits, for each move/rename with both endpoints
present, exactly one inverse selected move with swapped endpoints and an
"UNDO"-marked detail (nothing for any other operation); on the 3-step
swap the resulting operations are, in order,
`[move(/b→/tmp), move(/a→/b), move(/tmp→/a)]`. -/
theorem claim_C4 :
    (∀ (ops : List Operation) (t : String) (only : Bool),
      (build_undo_plan ops t only).1.operations.map proj5 =
        ops.reverse.filterMap undoInvSpec) ∧
    (build_undo_plan swap3ops).1.operations.map (fun op => (op.kind, op.src, op.dst)) =
      [(.move, some "/b", some "/tmp"), (.move, some "/a", some "/b"),
        (.move, some "/tmp", some "/a")] := by
  constructor
  · intro ops t only
    rw [build_undo_plan]
    simp only
    rw [foldl_add_warning_operations, apply_collision_warnings_proj]
    show ((([] : List Operation) ++ (undoLoop only ops.reverse).1).map proj5) = _
    rw [List.nil_append, undoLoop_fst_proj]
  · decide

/-- C7, corrected: `build_undo_plan` records one skip message for every
non-move/rename, non-mkdir operation (the mode-dependent text), never
one for mkdir, and — contrary to the claim — none for a move/rename
missing its source or destination (such operations are silently
dropped); every skip message is attached to the returned plan's
warnings; a zero-operation undo plan (e.g. from a single mkdir) is a
valid outcome. -/
theorem claim_C7 :
    (∀ (ops : List Operation) (t : String) (only : Bool),
      (build_undo_plan ops t only).2 = ops.reverse.filterMap (undoSkipSpec only)) ∧
    (∀ (ops : List Operation) (t : String) (only : Bool) (m : String),
      m ∈ (build_undo_plan ops t only).2 →
        m ∈ (build_undo_plan ops t only).1.warnings) ∧
    build_undo_plan [{ kind := .mkdir, dst := some "/d" }] =
      ({ title := "Undo", operations := [], warnings := [] }, []) := by
  refine ⟨?_, ?_, by decide⟩
  · intro ops t only
    rw [build_undo_plan]
    exact undoLoop_snd only ops.reverse
  · intro ops t only m hm
    rw [build_undo_plan] at hm ⊢
    exact foldl_add_warning_mem _ _ m hm

/-- C7 witness: a copy operation's skip message is attached to the undo
plan's warnings (concrete application of `claim_C7`). -/
theorem claim_C7_witness :
    "Skip undo for cp: /s -> /d" ∈
      (build_undo_plan [{ kind := .copy, src := some "/s", dst := some "/d" }]).1.warnings :=
  claim_C7.2.1 [{ kind := .copy, src := some "/s", dst := some "/d" }] "Undo" true
    "Skip undo for cp: /s -> /d" (by decide)

/-- C7 counterexample: a move operation lacking its source produces
*no* skip message and no plan warning — refuting the claim's "any
move/rename missing its source or destination is recorded as a skip
message attached to the returned plan's warnings". -/
theorem claim_C7_counterexample :
    build_undo_plan [{ kind := .move, src := none, dst := some "/x" }] =
      ({ title := "Undo", operations := [], warnings := [] }, []) := by
  decide

/-- The reloaded form of an operation after a journal round trip. -/
def reloadOp (op : Operation) : Operation :=
  { op with selected := true, op_id := "" }

/-- Enum lookup inverts `.value`. -/
theorem kindOfValue_value (k : OperationKind) : kindOfValue k.value = some k := by
  cases k <;> rfl

/-- Decoding inverts serialization for a single operation. -/
theorem jitemToOp_opToJournalDict (op : Operation) :
    jitemToOp (opToJournalDict op) = some (reloadOp op) := by
  rw [jitemToOp, opToJournalDict]
  simp only [pyOrStr, kindOfValue_value, reloadOp]

/-- C10 (confirmed): loading a journal record whose `ops` field is
`ops_to_journal_dicts(ops)` yields the operations in the same order with
the same `kind`, `src`, `dst`, `detail` and `warning`, each with
`selected = true` (for `ops = []` the loader falls back to parsing the
absent script, which also yields `[]`). -/
theorem claim_C10 (ops : List Operation) :
    ops_from_journal { ops := some (ops_to_journal_dicts ops), script := none } =
      ops.map reloadOp := by
  have key : ∀ (l : List Operation),
      (l.map opToJournalDict).filterMap jitemToOp = l.map reloadOp := by
    intro l
    induction l with
    | nil => rfl
    | cons a as ih =>
      rw [List.map_cons, List.filterMap_cons, jitemToOp_opToJournalDict,
        List.map_cons, ih]
  cases ops with
  | nil => rfl
  | cons o os =>
    rw [ops_from_journal]
    simp only [ops_to_journal_dicts, List.map_cons]
    rw [if_pos (by simp), ← List.map_cons opToJournalDict o os, key,
      List.map_cons]

/-! ### `PurePosixPath` string normalization

`str(PurePosixPath(s))` collapses repeated slashes (keeping a double
slash only when the path starts with exactly two), drops `.` components,
keeps `..`, strips the trailing slash, and renders the empty/relative
dot path as `"."`.  `parts` is the root (when absolute) followed by the
components. -/

/-- Split a character list at every `'/'`. -/
def splitSlash : List Char → List (List Char)
  | [] => [[]]
  | c :: cs =>
    if c = '/' then [] :: splitSlash cs
    else
      match splitSlash cs with
      | g :: gs => (c :: g) :: gs
      | [] => [[c]]

/-- Join components with `'/'` separators. -/
def joinSlash : List (List Char) → List Char
  | [] => []
  | [p] => p
  | p :: q :: ps => p ++ '/' :: joinSlash (q :: ps)

/-- A component survives `PurePosixPath` parsing unless empty or `"."`. -/
def compKeep (g : List Char) : Bool :=
  decide (g ≠ [] ∧ g ≠ ['.'])

/-- The retained path components of `PurePosixPath(s)`. -/
def pxComps (s : List Char) : List (List Char) :=
  (splitSlash s).filter compKeep

/-- The root marker of `PurePosixPath(s)`: `"//"` for exactly two
leading slashes, `"/"` for one or three-plus, `""` when relative. -/
def pxRoot (s : List Char) : List Char :=
  if ['/', '/', '/'].isPrefixOf s then ['/']
  else if ['/', '/'].isPrefixOf s then ['/', '/']
  else if ['/'].isPrefixOf s then ['/']
  else []

/-- Rendering of a parsed `(root, components)` pair back to a string. -/
def renderPx (r : List Char) (cs : List (List Char)) : List Char :=
  if r = [] then (if cs = [] then ['.'] else joinSlash cs)
  else r ++ joinSlash cs

/-- `str(PurePosixPath(s))`. -/
def pxStr (s : List Char) : List Char :=
  renderPx (pxRoot s) (pxComps s)

/-- `PurePosixPath(s).parts` (the root marker, then the components). -/
def pxParts (s : List Char) : List (List Char) :=
  if pxRoot s = [] then pxComps s else pxRoot s :: pxComps s

/-- `splitSlash` never returns the empty list. -/
theorem splitSlash_ne_nil : ∀ s, splitSlash s ≠ [] := by
  intro s
  cases s with
  | nil => simp [splitSlash]
  | cons c cs =>
    rw [splitSlash]
    by_cases hc : c = '/'
    · simp [hc]
    · rw [if_neg hc]
      cases h : splitSlash cs <;> simp

/-- Pieces produced by `splitSlash` contain no slash. -/
theorem splitSlash_noSlash : ∀ s, ∀ g ∈ splitSlash s, '/' ∉ g := by
  intro s
  induction s with
  | nil =>
    intro g hg
    rw [splitSlash] at hg
    simp at hg
    simp [hg]
  | cons c cs ih =>
    intro g hg
    rw [splitSlash] at hg
    by_cases hc : c = '/'
    · rw [if_pos hc] at hg
      rcases List.mem_cons.mp hg with h | h
      · simp [h]
      · exact ih g h
    · rw [if_neg hc] at hg
      cases hs : splitSlash cs with
      | nil => exact absurd hs (splitSlash_ne_nil cs)
      | cons g0 gs =>
        rw [hs] at hg
        rcases List.mem_cons.mp hg with h | h
        · subst h
          intro hm
          rcases List.mem_cons.mp hm with h' | h'
          · exact hc h'.symm
          · exact ih g0 (hs ▸ List.mem_cons_self g0 gs) h'
        · exact ih g (hs ▸ List.mem_cons_of_mem g0 h)

/-- Prepending a slash-free prefix extends the first piece. -/
theorem splitSlash_append (p : List Char) (hp : '/' ∉ p) :
    ∀ (l : List Char) (g : List Char) (gs : List (List Char)),
      splitSlash l = g :: gs → splitSlash (p ++ l) = (p ++ g) :: gs := by
  induction p with
  | nil => intro l g gs h; simpa using h
  | cons c p' ih =>
    intro l g gs h
    have hc : c ≠ '/' := fun hh => hp (hh ▸ List.mem_cons_self c p')
    have hp' : '/' ∉ p' := fun hh => hp (List.mem_cons_of_mem c hh)
    rw [List.cons_append, splitSlash, if_neg hc, ih hp' l g gs h]
    rfl

/-- A slash-free string splits into itself. -/
theorem splitSlash_noSlash_self (p : List Char) (hp : '/' ∉ p) :
    splitSlash p = [p] := by
  have := splitSlash_append p hp [] [] [] (by rw [splitSlash])
  simpa using this

/-- `splitSlash` inverts `joinSlash` on nonempty slash-free pieces. -/
theorem splitSlash_joinSlash : ∀ (ps : List (List Char)),
    (∀ g ∈ ps, '/' ∉ g) → ps ≠ [] → splitSlash (joinSlash ps) = ps := by
  intro ps
  induction ps with
  | nil => intro _ h; exact absurd rfl h
  | cons p qs ih =>
    intro hfree _
    cases qs with
    | nil =>
      rw [show joinSlash [p] = p from rfl]
      exact splitSlash_noSlash_self p (hfree p (List.mem_cons_self p []))
    | cons q qs' =>
      rw [show joinSlash (p :: q :: qs') = p ++ '/' :: joinSlash (q :: qs') from rfl]
      have hrec : splitSlash (joinSlash (q :: qs')) = q :: qs' :=
        ih (fun g hg => hfree g (List.mem_cons_of_mem p hg)) (by simp)
      have hsplit : splitSlash ('/' :: joinSlash (q :: qs')) = [] :: q :: qs' := by
        rw [splitSlash, if_pos rfl, hrec]
      rw [splitSlash_append p (hfree p (List.mem_cons_self p _)) _ _ _ hsplit]
      simp

/-- Components of a rendered component list are the list itself. -/
theorem pxComps_joinSlash (cs : List (List Char))
    (hfree : ∀ g ∈ cs, '/' ∉ g) (hkeep : ∀ g ∈ cs, compKeep g = true) :
    (splitSlash (joinSlash cs)).filter compKeep = cs := by
  cases cs with
  | nil =>
    rw [show joinSlash [] = [] from rfl, show splitSlash [] = [[]] from rfl]
    rfl
  | cons g gs =>
    rw [splitSlash_joinSlash (g :: gs) hfree (by simp)]
    exact List.filter_eq_self.mpr hkeep

/-- Every retained component is slash-free. -/
theorem pxComps_noSlash (s : List Char) : ∀ g ∈ pxComps s, '/' ∉ g := by
  intro g hg
  exact splitSlash_noSlash s g (List.mem_filter.mp hg).1

/-- Every retained component satisfies `compKeep`. -/
theorem pxComps_keep (s : List Char) : ∀ g ∈ pxComps s, compKeep g = true := by
  intro g hg
  exact (List.mem_filter.mp hg).2

/-- The root marker is one of `""`, `"/"`, `"//"`. -/
theorem pxRoot_cases (s : List Char) :
    pxRoot s = [] ∨ pxRoot s = ['/'] ∨ pxRoot s = ['/', '/'] := by
  rw [pxRoot]
  split_ifs <;> simp

/-- Re-parsing the rendered string recovers the components. -/
theorem pxComps_pxStr (s : List Char) : pxComps (pxStr s) = pxComps s := by
  rw [pxStr, renderPx]
  rcases pxRoot_cases s with hr | hr | hr
  · rw [if_pos hr]
    by_cases hcs : pxComps s = []
    · rw [if_pos hcs, hcs]
      rfl
    · rw [if_neg hcs, pxComps]
      exact pxComps_joinSlash _ (pxComps_noSlash s) (pxComps_keep s)
  · rw [hr, if_neg (by simp), pxComps, show (['/'] : List Char) ++ joinSlash (pxComps s) =
      '/' :: joinSlash (pxComps s) from rfl, splitSlash, if_pos rfl]
    rw [List.filter_cons]
    rw [show compKeep [] = false from rfl]
    simp only [Bool.false_eq_true, if_neg]
    by_cases hcs : pxComps s = []
    · rw [hcs, show joinSlash [] = [] from rfl, show splitSlash [] = [[]] from rfl]
      rfl
    · exact pxComps_joinSlash _ (pxComps_noSlash s) (pxComps_keep s)
  · rw [hr, if_neg (by simp), pxComps, show (['/', '/'] : List Char) ++ joinSlash (pxComps s) =
      '/' :: '/' :: joinSlash (pxComps s) from rfl, splitSlash, if_pos rfl,
      splitSlash, if_pos rfl]
    rw [List.filter_cons, List.filter_cons]
    rw [show compKeep [] = false from rfl]
    simp only [Bool.false_eq_true, if_neg]
    by_cases hcs : pxComps s = []
    · rw [hcs, show joinSlash [] = [] from rfl, show splitSlash [] = [[]] from rfl]
      rfl
    · exact pxComps_joinSlash _ (pxComps_noSlash s) (pxComps_keep s)

/-- A string not starting with a slash has an empty root marker. -/
theorem pxRoot_not_slash (c : Char) (l : List Char) (hc : c ≠ '/') :
    pxRoot (c :: l) = [] := by
  have hb : ('/' == c) = false := by
    rw [beq_eq_false_iff_ne]
    exact fun hh => hc hh.symm
  rw [pxRoot]
  simp [List.isPrefixOf, hb]

/-- The first characters of a rendered nonempty component list: it
starts with the first component's head, which is not a slash. -/
theorem joinSlash_cons_head (g : List Char) (gs : List (List Char)) :
    ∃ t, joinSlash (g :: gs) = g ++ t := by
  cases gs with
  | nil => exact ⟨[], by simp [joinSlash]⟩
  | cons q qs => exact ⟨'/' :: joinSlash (q :: qs), rfl⟩

/-- Re-parsing the rendered string recovers the root marker. -/
theorem pxRoot_pxStr (s : List Char) : pxRoot (pxStr s) = pxRoot s := by
  have hshape : pxComps s = [] ∨
      ∃ (c : Char) (g' : List Char) (gs : List (List Char)),
        pxComps s = (c :: g') :: gs ∧ c ≠ '/' := by
    cases hcs : pxComps s with
    | nil => exact Or.inl rfl
    | cons g gs =>
      have hkeep := pxComps_keep s g (hcs ▸ List.mem_cons_self g gs)
      have hfree := pxComps_noSlash s g (hcs ▸ List.mem_cons_self g gs)
      cases g with
      | nil => simp [compKeep] at hkeep
      | cons c g' =>
        exact Or.inr ⟨c, g', gs, rfl, fun hh =>
          hfree (hh ▸ List.mem_cons_self c g')⟩
  rw [pxStr, renderPx]
  rcases pxRoot_cases s with hr | hr | hr
  · rw [if_pos hr, hr]
    rcases hshape with hcs | ⟨c, g', gs, hcs, hc⟩
    · rw [if_pos hcs]
      exact pxRoot_not_slash '.' [] (by decide)
    · rw [if_neg (by rw [hcs]; simp), hcs]
      obtain ⟨t, ht⟩ := joinSlash_cons_head (c :: g') gs
      rw [ht, List.cons_append]
      exact pxRoot_not_slash c _ hc
  · rw [hr, if_neg (by simp)]
    rcases hshape with hcs | ⟨c, g', gs, hcs, hc⟩
    · rw [hcs]
      decide
    · rw [hcs]
      obtain ⟨t, ht⟩ := joinSlash_cons_head (c :: g') gs
      rw [ht, List.cons_append]
      have hb : ('/' == c) = false := by
        rw [beq_eq_false_iff_ne]
        exact fun hh => hc hh.symm
      rw [pxRoot]
      simp [List.isPrefixOf, hb]
  · rw [hr, if_neg (by simp)]
    rcases hshape with hcs | ⟨c, g', gs, hcs, hc⟩
    · rw [hcs]
      decide
    · rw [hcs]
      obtain ⟨t, ht⟩ := joinSlash_cons_head (c :: g') gs
      rw [ht, List.cons_append]
      have hb : ('/' == c) = false := by
        rw [beq_eq_false_iff_ne]
        exact fun hh => hc hh.symm
      rw [pxRoot]
      simp [List.isPrefixOf, hb]

/-- `..` appears among `parts` of the normalized string exactly when it
appears among the components of the original path (the root marker is
never `..`). -/
theorem dotdot_pxParts_iff (path : List Char) :
    (['.', '.'] ∈ pxParts (pxStr path)) ↔ ['.', '.'] ∈ pxComps path := by
  rw [pxParts, pxRoot_pxStr, pxComps_pxStr]
  rcases pxRoot_cases path with hr | hr | hr
  · rw [if_pos hr]
  · rw [hr, if_neg (by simp), List.mem_cons]
    simp
  · rw [hr, if_neg (by simp), List.mem_cons]
    simp

/-! ### Sandbox — `src/jfo/core/validators.py` -/

/-- The `Sandbox` dataclass (remote paths as character lists). -/
structure Sandbox where
  allowed_roots : List (List Char)

/-- `Sandbox.normalized_roots()`: keep truthy roots whose normalization
is absolute, terminated with a trailing slash. -/
def Sandbox.normalized_roots (sb : Sandbox) : List (List Char) :=
  sb.allowed_roots.filterMap (fun r =>
    if r = [] then none
    else
      let rp := pxStr r
      if ¬ (['/'].isPrefixOf rp = true) then none
      else some (if rp.getLast? = some '/' then rp else rp ++ ['/']))

/-- `Sandbox.assert_path_allowed(path)`; `Except.error` models raising
`SandboxViolation`. -/
def Sandbox.assert_path_allowed (sb : Sandbox) (path : List Char) :
    Except String Unit :=
  let p := pxStr path
  if ¬ (['/'].isPrefixOf p = true) then
    .error ("Remote path must be absolute: " ++ String.mk path)
  else if ['.', '.'] ∈ pxParts p then
    .error ("Remote path contains '..' traversal: " ++ String.mk path)
  else
    let roots := sb.normalized_roots
    if roots = [] then
      .error "No allowed roots configured. Set at least one root in Main tab (Root-Sandbox)."
    else if roots.any (fun root => root.isPrefixOf p) then .ok ()
    else .error ("Path is outside allowed roots: " ++ String.mk path)

/-- C5 (confirmed): `assert_path_allowed` accepts exactly the absolute
paths without a `..` component whose normalization extends one of the
normalized allowed roots; every normalized root is absolute and ends
with a slash; and `/volume1/media/../etc/passwd` is rejected under every
root configuration. -/
theorem claim_C5 :
    (∀ (sb : Sandbox) (path : List Char),
      isOkE (sb.assert_path_allowed path) = true ↔
        (['/'].isPrefixOf (pxStr path) = true ∧ ['.', '.'] ∉ pxComps path ∧
          ∃ r ∈ sb.normalized_roots, r.isPrefixOf (pxStr path) = true)) ∧
    (∀ (sb : Sandbox) (root : List Char), root ∈ sb.normalized_roots →
      ['/'].isPrefixOf root = true ∧ root.getLast? = some '/') ∧
    (∀ sb : Sandbox,
      isOkE (sb.assert_path_allowed "/volume1/media/../etc/passwd".toList) = false) := by
  refine ⟨?_, ?_, ?_⟩
  · intro sb path
    rw [Sandbox.assert_path_allowed]
    by_cases habs : ['/'].isPrefixOf (pxStr path) = true
    · rw [if_neg (by simpa using habs)]
      by_cases hdd : ['.', '.'] ∈ pxParts (pxStr path)
      · rw [if_pos hdd]
        simp only [isOkE, Bool.false_eq_true, false_iff]
        intro ⟨_, hnd, _⟩
        exact hnd ((dotdot_pxParts_iff path).mp hdd)
      · rw [if_neg hdd]
        by_cases hemp : sb.normalized_roots = []
        · rw [if_pos hemp]
          simp only [isOkE, Bool.false_eq_true, false_iff]
          intro ⟨_, _, r, hr, _⟩
          rw [hemp] at hr
          exact List.not_mem_nil r hr
        · rw [if_neg hemp]
          by_cases hany : sb.normalized_roots.any (fun root => root.isPrefixOf (pxStr path)) = true
          · rw [if_pos hany]
            simp only [isOkE, true_iff]
            refine ⟨habs, fun hq => hdd ((dotdot_pxParts_iff path).mpr hq), ?_⟩
            obtain ⟨r, hr, hpr⟩ := List.any_eq_true.mp hany
            exact ⟨r, hr, hpr⟩
          · rw [if_neg hany]
            simp only [isOkE, Bool.false_eq_true, false_iff]
            intro ⟨_, _, r, hr, hpr⟩
            exact hany (List.any_eq_true.mpr ⟨r, hr, hpr⟩)
    · rw [if_pos (by simpa using habs)]
      simp only [isOkE, Bool.false_eq_true, false_iff]
      intro ⟨h1, _, _⟩
      exact habs h1
  · intro sb root hroot
    rw [Sandbox.normalized_roots] at hroot
    obtain ⟨r, _, hr⟩ := List.mem_filterMap.mp hroot
    by_cases hre : r = []
    · rw [if_pos hre] at hr
      exact Option.noConfusion hr
    · rw [if_neg hre] at hr
      by_cases habs : ['/'].isPrefixOf (pxStr r) = true
      · rw [if_neg (by simpa using habs)] at hr
        have hr' := Option.some.inj hr
        by_cases hend : (pxStr r).getLast? = some '/'
        · rw [if_pos hend] at hr'
          exact hr' ▸ ⟨habs, hend⟩
        · rw [if_neg hend] at hr'
          subst hr'
          constructor
          · cases hx : pxStr r with
            | nil => rw [hx] at habs; exact absurd habs (by decide)
            | cons c cs =>
              rw [hx] at habs
              rw [List.cons_append]
              simp only [List.isPrefixOf, List.isPrefixOf_nil_left, Bool.and_true] at habs ⊢
              exact habs
          · rw [List.getLast?_append]
            rfl
      · rw [if_pos (by simpa using habs)] at hr
        exact Option.noConfusion hr
  · intro sb
    rw [Sandbox.assert_path_allowed]
    rw [if_neg (by decide)]
    rw [if_pos (by decide)]
    rfl

/-- C5 witness: the scenario root `/volume1/media/` accepts
`/volume1/media/Movies/X.mkv`, and the normalized root is absolute and
slash-terminated (concrete application of `claim_C5`). -/
theorem claim_C5_witness :
    isOkE ((Sandbox.mk ["/volume1/media/".toList]).assert_path_allowed
        "/volume1/media/Movies/X.mkv".toList) = true ∧
    (['/'].isPrefixOf "/volume1/media/".toList = true ∧
      ("/volume1/media/".toList).getLast? = some '/') :=
  ⟨(claim_C5.1 (Sandbox.mk ["/volume1/media/".toList])
      "/volume1/media/Movies/X.mkv".toList).mpr (by decide),
    claim_C5.2.1 (Sandbox.mk ["/volume1/media/".toList])
      "/volume1/media/".toList (by decide)⟩

/-! ### Media grouping — `src/jfo/core/media_grouping.py` -/

/-- `str.startswith` via character lists. -/
def strStarts (s pre : String) : Bool :=
  pre.toList.isPrefixOf s.toList

/-- `str.lower()` (ASCII). -/
def lowerStr (s : String) : String :=
  String.mk (s.toList.map Char.toLower)

/-- Index of the last `'.'` in a name (`str.rfind(".")` when present). -/
def lastDotIdx (name : List Char) : Option Nat :=
  ((name.enum.filter (fun pr => pr.2 == '.')).getLast?).map (fun pr => pr.1)

/-- `PurePosixPath(name).suffix`: the final `"." + ext` when the last
dot is neither leading nor trailing, else `""`. -/
def pySuffix (name : List Char) : List Char :=
  match lastDotIdx name with
  | some i => if 0 < i ∧ i + 1 < name.length then name.drop i else []
  | none => []

/-- `PurePosixPath(name).stem`. -/
def pyStem (name : List Char) : List Char :=
  match lastDotIdx name with
  | some i => if 0 < i ∧ i + 1 < name.length then name.take i else name
  | none => name

/-- The `MediaFile` dataclass (equality is by path). -/
structure MediaFile where
  path : String
deriving DecidableEq, Repr

/-- `MediaFile.dir`: `str(PurePosixPath(path).parent)`. -/
def MediaFile.dir (f : MediaFile) : String :=
  String.mk (renderPx (pxRoot f.path.toList) ((pxComps f.path.toList).dropLast))

/-- `MediaFile.name`: the final path component. -/
def MediaFile.name (f : MediaFile) : String :=
  String.mk ((pxComps f.path.toList).getLast?.getD [])

/-- `MediaFile.suffix`: lowercased extension without the dot. -/
def MediaFile.suffix (f : MediaFile) : String :=
  String.mk (((pySuffix (f.name.toList)).map Char.toLower).dropWhile (fun c => c = '.'))

/-- `MediaFile.stem`. -/
def MediaFile.stem (f : MediaFile) : String :=
  String.mk (pyStem (f.name.toList))

/-- The `MediaGroup` dataclass. -/
structure MediaGroup where
  directory : String
  base_stem : String
  video : Option MediaFile := none
  sidecars : List MediaFile := []
  nfo : Option MediaFile := none
deriving DecidableEq, Repr

/-- `DEFAULT_VIDEO_EXTS`. -/
def DEFAULT_VIDEO_EXTS : List String := ["mkv", "mp4", "avi", "mov"]

/-- `DEFAULT_SIDECAR_EXTS`. -/
def DEFAULT_SIDECAR_EXTS : List String :=
  ["nfo", "jpg", "jpeg", "png", "webp", "srt", "ass", "ssa", "sub", "idx"]

/-- `FOLDER_LEVEL_SIDECAR_NAMES` (Jellyfin/Kodi folder-level artwork). -/
def FOLDER_LEVEL_SIDECAR_NAMES : List String :=
  ["poster.jpg", "poster.jpeg", "poster.png", "poster.webp",
   "fanart.jpg", "fanart.jpeg", "fanart.png",
   "backdrop.jpg", "backdrop.jpeg", "backdrop.png",
   "landscape.jpg", "landscape.jpeg", "landscape.png",
   "banner.jpg", "banner.jpeg", "banner.png",
   "logo.png", "logo.webp", "clearlogo.png", "clearlogo.webp",
   "clearart.png", "clearart.webp", "disc.png", "disc.webp",
   "thumb.jpg", "thumb.jpeg", "thumb.png",
   "folder.jpg", "folder.jpeg", "folder.png"]

/-- `FOLDER_LEVEL_NFO_NAMES`. -/
def FOLDER_LEVEL_NFO_NAMES : List String := ["movie.nfo"]

/-- The files of one directory bucket, in input order. -/
def dirFiles (paths : List String) (d : String) : List MediaFile :=
  (paths.map MediaFile.mk).filter (fun f => decide (f.dir = d))

/-- The video candidates of one directory bucket. -/
def dirVideos (video_exts : List String) (paths : List String) (d : String) :
    List MediaFile :=
  (dirFiles paths d).filter (fun f => video_exts.contains f.suffix)

/-- Stable insertion keeping existing elements with `le`-smaller-or-equal
keys in front (Python `sorted` is stable). -/
def insertByKey (le : MediaFile → MediaFile → Bool) (x : MediaFile) :
    List MediaFile → List MediaFile
  | [] => [x]
  | y :: ys => if le y x then y :: insertByKey le x ys else x :: y :: ys

/-- Stable insertion sort (models Python `sorted`). -/
def sortStable (le : MediaFile → MediaFile → Bool) (l : List MediaFile) :
    List MediaFile :=
  l.foldl (fun acc x => insertByKey le x acc) []

/-- Lexicographic code-point comparison (Python `str` `<=`). -/
def charListLe : List Char → List Char → Bool
  | [], _ => true
  | _ :: _, [] => false
  | a :: as, b :: bs => if a = b then charListLe as bs else decide (a.toNat < b.toNat)

/-- Comparison used by `group_media_files`: case-insensitive name
(`key=lambda x: x.name.lower()`). -/
def leNameLower (a b : MediaFile) : Bool :=
  charListLe ((lowerStr a.name).toList) ((lowerStr b.name).toList)

/-- First pass of the per-video loop: same-stem sidecars (`sidecars`
accumulates in file order, `nfo` keeps the last stem-matching NFO). -/
def stemStep (sidecar_exts : List String) (v : MediaFile)
    (acc : List MediaFile × Option MediaFile) (f : MediaFile) :
    List MediaFile × Option MediaFile :=
  if f.path = v.path then acc
  else if ¬ (sidecar_exts.contains f.suffix = true) then acc
  else if f.name = v.stem ++ ".nfo" ∨ (f.suffix = "nfo" ∧ f.stem = v.stem) then
    (acc.1 ++ [f], some f)
  else if strStarts f.name (v.stem ++ ".") = true ∨
      strStarts f.name (v.stem ++ "-") = true then
    (acc.1 ++ [f], acc.2)
  else acc

/-- Second pass: folder-level artwork/NFO attachment (only invoked when
the directory holds exactly one video). -/
def folderStep (sidecar_exts : List String) (v : MediaFile)
    (acc : List MediaFile × Option MediaFile) (f : MediaFile) :
    List MediaFile × Option MediaFile :=
  if f.path = v.path then acc
  else if ¬ (sidecar_exts.contains f.suffix = true) then acc
  else if lowerStr f.name ∈ FOLDER_LEVEL_NFO_NAMES ∧ f.suffix = "nfo" then
    ((if f ∈ acc.1 then acc.1 else acc.1 ++ [f]),
     (match acc.2 with | none => some f | some x => some x))
  else if lowerStr f.name ∈ FOLDER_LEVEL_SIDECAR_NAMES then
    ((if f ∈ acc.1 then acc.1 else acc.1 ++ [f]), acc.2)
  else acc

/-- Construction of one group for anchor video `v`. -/
def mkGroup (sidecar_exts : List String) (d : String)
    (files videos : List MediaFile) (v : MediaFile) : MediaGroup :=
  let first := files.foldl (stemStep sidecar_exts v) ([], none)
  let second :=
    if videos.length = 1 then files.foldl (folderStep sidecar_exts v) first
    else first
  { directory := d, base_stem := v.stem, video := some v,
    sidecars := second.1, nfo := second.2 }

/-- `group_media_files(paths, video_exts=..., sidecar_exts=...)`. -/
def group_media_files (paths : List String)
    (video_exts : List String := DEFAULT_VIDEO_EXTS)
    (sidecar_exts : List String := DEFAULT_SIDECAR_EXTS) : List MediaGroup :=
  (firstDedup ((paths.map MediaFile.mk).map (fun f => f.dir))).flatMap (fun d =>
    let files := dirFiles paths d
    let videos := dirVideos video_exts paths d
    (sortStable leNameLower videos).map (mkGroup sidecar_exts d files videos))

/-- The same-stem sidecar rule for anchor `v`. -/
def stemRule (v f : MediaFile) : Prop :=
  f.name = v.stem ++ ".nfo" ∨ (f.suffix = "nfo" ∧ f.stem = v.stem) ∨
    strStarts f.name (v.stem ++ ".") = true ∨ strStarts f.name (v.stem ++ "-") = true

/-- Everything the first (stem) pass adds to the sidecars satisfies the
stem rule. -/
theorem stemFold_mem (sexts : List String) (v : MediaFile) :
    ∀ (l : List MediaFile) (acc : List MediaFile × Option MediaFile) (f : MediaFile),
      f ∈ (l.foldl (stemStep sexts v) acc).1 → f ∈ acc.1 ∨ stemRule v f := by
  intro l
  induction l with
  | nil => intro acc f hf; exact Or.inl hf
  | cons x xs ih =>
    intro acc f hf
    rw [List.foldl_cons] at hf
    rcases ih (stemStep sexts v acc x) f hf with hmem | hrule
    · by_cases h1 : x.path = v.path
      · rw [stemStep, if_pos h1] at hmem
        exact Or.inl hmem
      · by_cases h2 : sexts.contains x.suffix = true
        · rw [stemStep, if_neg h1, if_neg (not_not_intro h2)] at hmem
          by_cases h3 : x.name = v.stem ++ ".nfo" ∨ (x.suffix = "nfo" ∧ x.stem = v.stem)
          · rw [if_pos h3] at hmem
            have hmem' : f ∈ acc.1 ++ [x] := hmem
            rcases List.mem_append.mp hmem' with hm | hm
            · exact Or.inl hm
            · have hfx : f = x := by simpa using hm
              subst hfx
              rcases h3 with h | h
              · exact Or.inr (Or.inl h)
              · exact Or.inr (Or.inr (Or.inl h))
          · rw [if_neg h3] at hmem
            by_cases h4 : strStarts x.name (v.stem ++ ".") = true ∨
                strStarts x.name (v.stem ++ "-") = true
            · rw [if_pos h4] at hmem
              have hmem' : f ∈ acc.1 ++ [x] := hmem
              rcases List.mem_append.mp hmem' with hm | hm
              · exact Or.inl hm
              · have hfx : f = x := by simpa using hm
                subst hfx
                rcases h4 with h | h
                · exact Or.inr (Or.inr (Or.inr (Or.inl h)))
                · exact Or.inr (Or.inr (Or.inr (Or.inr h)))
            · rw [if_neg h4] at hmem
              exact Or.inl hmem
        · rw [stemStep, if_neg h1, if_pos (by simpa using h2)] at hmem
          exact Or.inl hmem
    · exact Or.inr hrule

/-- One folder-pass step never removes an already-attached sidecar. -/
theorem folderStep_mono (sexts : List String) (v : MediaFile)
    (acc : List MediaFile × Option MediaFile) (x f : MediaFile)
    (h : f ∈ acc.1) : f ∈ (folderStep sexts v acc x).1 := by
  rw [folderStep]
  split_ifs <;> first
    | exact h
    | exact List.mem_append_left _ h

/-- The folder pass never removes an already-attached sidecar. -/
theorem folderFold_mono (sexts : List String) (v : MediaFile) :
    ∀ (l : List MediaFile) (acc : List MediaFile × Option MediaFile)
      (f : MediaFile), f ∈ acc.1 → f ∈ (l.foldl (folderStep sexts v) acc).1 := by
  intro l
  induction l with
  | nil => intro acc f h; exact h
  | cons x xs ih =>
    intro acc f h
    rw [List.foldl_cons]
    exact ih (folderStep sexts v acc x) f (folderStep_mono sexts v acc x f h)

/-- The folder pass attaches every non-anchor file of the bucket whose
extension is a sidecar extension and whose lowercased name is a
folder-level NFO name (with `nfo` suffix) or artwork name. -/
theorem folderFold_adds (sexts : List String) (v : MediaFile) :
    ∀ (l : List MediaFile) (acc : List MediaFile × Option MediaFile)
      (f : MediaFile), f ∈ l → f.path ≠ v.path →
      sexts.contains f.suffix = true →
      ((lowerStr f.name ∈ FOLDER_LEVEL_NFO_NAMES ∧ f.suffix = "nfo") ∨
        lowerStr f.name ∈ FOLDER_LEVEL_SIDECAR_NAMES) →
      f ∈ (l.foldl (folderStep sexts v) acc).1 := by
  intro l
  induction l with
  | nil => intro acc f hf; exact absurd hf (List.not_mem_nil f)
  | cons x xs ih =>
    intro acc f hf hp hs hn
    rw [List.foldl_cons]
    rcases List.mem_cons.mp hf with heq | hmem
    · subst heq
      apply folderFold_mono sexts v xs (folderStep sexts v acc f) f
      rw [folderStep, if_neg hp, if_neg (not_not_intro hs)]
      by_cases h3 : lowerStr f.name ∈ FOLDER_LEVEL_NFO_NAMES ∧ f.suffix = "nfo"
      · rw [if_pos h3]
        split_ifs with hin
        · exact hin
        · exact List.mem_append_right _ (List.mem_singleton_self f)
      · rw [if_neg h3]
        have hart : lowerStr f.name ∈ FOLDER_LEVEL_SIDECAR_NAMES := by
          rcases hn with h | h
          · exact absurd h h3
          · exact h
        rw [if_pos hart]
        split_ifs with hin
        · exact hin
        · exact List.mem_append_right _ (List.mem_singleton_self f)
    · exact ih (folderStep sexts v acc x) f hmem hp hs hn

/-- C8, corrected: when a directory holds exactly one video anchor,
every folder-level artwork/NFO-named sidecar-extension file of the
directory is attached to that single group (illustrated on the
single-video example `{Movie.mkv, Movie.en.srt, Movie.nfo,
poster.jpg}`); when two or more video anchors share the directory the
folder-level pass is suppressed, so a file can only appear among a
group's sidecars through the same-stem rule (in particular
`{A.mkv, B.mkv, poster.jpg}` attaches `poster.jpg` to neither group);
however a folder-level-named file is not categorically excluded in the
multi-video case: it is still attached when its name coincidentally
matches a video stem. -/
theorem claim_C8 :
    (∀ (paths vexts sexts : List String) (g : MediaGroup) (v f : MediaFile),
      g ∈ group_media_files paths vexts sexts →
      g.video = some v →
      2 ≤ (dirVideos vexts paths g.directory).length →
      f ∈ g.sidecars →
      stemRule v f) ∧
    (∀ (paths vexts sexts : List String) (g : MediaGroup) (v f : MediaFile),
      g ∈ group_media_files paths vexts sexts →
      g.video = some v →
      (dirVideos vexts paths g.directory).length = 1 →
      f ∈ dirFiles paths g.directory →
      f.path ≠ v.path →
      sexts.contains f.suffix = true →
      ((lowerStr f.name ∈ FOLDER_LEVEL_NFO_NAMES ∧ f.suffix = "nfo") ∨
        lowerStr f.name ∈ FOLDER_LEVEL_SIDECAR_NAMES) →
      f ∈ g.sidecars) ∧
    (group_media_files
        ["/m/Movie.mkv", "/m/Movie.en.srt", "/m/Movie.nfo", "/m/poster.jpg"]).map
        (fun g => (g.base_stem, g.sidecars.map (fun f => f.path),
          g.nfo.map (fun f => f.path))) =
      [("Movie", ["/m/Movie.en.srt", "/m/Movie.nfo", "/m/poster.jpg"],
        some "/m/Movie.nfo")] ∧
    (group_media_files ["/m/A.mkv", "/m/B.mkv", "/m/poster.jpg"]).map
        (fun g => (g.directory, g.base_stem, g.sidecars.map (fun f => f.path))) =
      [("/m", "A", []), ("/m", "B", [])] := by
  refine ⟨?_, ?_, by decide, by decide⟩
  · intro paths vexts sexts g v f hg hv hcount hf
    rw [group_media_files] at hg
    obtain ⟨d, _, hg'⟩ := List.mem_flatMap.mp hg
    obtain ⟨v', _, hgeq⟩ := List.mem_map.mp hg'
    subst hgeq
    have hdir : (mkGroup sexts d (dirFiles paths d) (dirVideos vexts paths d) v').directory
        = d := by
      rw [mkGroup]
    rw [hdir] at hcount
    have hvv : v' = v := by
      rw [mkGroup] at hv
      simpa using hv
    subst hvv
    have hlen : ¬ ((dirVideos vexts paths d).length = 1) := by omega
    rw [mkGroup] at hf
    simp only [hlen, if_false] at hf
    rcases stemFold_mem sexts v' (dirFiles paths d) ([], none) f hf with hm | hr
    · exact absurd hm (List.not_mem_nil f)
    · exact hr
  · intro paths vexts sexts g v f hg hv hcount hf hp hs hn
    rw [group_media_files] at hg
    obtain ⟨d, _, hg'⟩ := List.mem_flatMap.mp hg
    obtain ⟨v', _, hgeq⟩ := List.mem_map.mp hg'
    subst hgeq
    have hdir : (mkGroup sexts d (dirFiles paths d) (dirVideos vexts paths d) v').directory
        = d := by
      rw [mkGroup]
    rw [hdir] at hcount hf
    have hvv : v' = v := by
      rw [mkGroup] at hv
      simpa using hv
    subst hvv
    rw [mkGroup]
    simp only [hcount, if_true]
    exact folderFold_adds sexts v' (dirFiles paths d) _ f hf hp hs hn

/-- C8 counterexample: in `{poster.mkv, B.mkv, poster.jpg}` the
directory has two video anchors, yet `poster.jpg` — a folder-level
artwork name — is attached to the `poster.mkv` group (through the stem
rule), refuting the claim that with two or more videos such files are
attached to none of the directory's groups. -/
theorem claim_C8_counterexample :
    "poster.jpg" ∈ FOLDER_LEVEL_SIDECAR_NAMES ∧
    (group_media_files ["/m/poster.mkv", "/m/B.mkv", "/m/poster.jpg"]).map
        (fun g => (g.directory, g.base_stem, g.sidecars.map (fun f => f.path))) =
      [("/m", "B", []), ("/m", "poster", ["/m/poster.jpg"])] := by
  constructor
  · decide
  · decide

/-- The group that `group_media_files` builds for `poster.mkv` in the
two-video directory of the counterexample. -/
def c8group : MediaGroup :=
  { directory := "/m", base_stem := "poster",
    video := some (MediaFile.mk "/m/poster.mkv"),
    sidecars := [MediaFile.mk "/m/poster.jpg"], nfo := none }

/-- The group that `group_media_files` builds in the single-video
directory `{Movie.mkv, Movie.en.srt, Movie.nfo, poster.jpg}`. -/
def c8group1 : MediaGroup :=
  { directory := "/m", base_stem := "Movie",
    video := some (MediaFile.mk "/m/Movie.mkv"),
    sidecars := [MediaFile.mk "/m/Movie.en.srt", MediaFile.mk "/m/Movie.nfo",
      MediaFile.mk "/m/poster.jpg"],
    nfo := some (MediaFile.mk "/m/Movie.nfo") }

/-- C8 witness: concrete applications of `claim_C8` — in the two-video
directory the attached file satisfies the stem rule, and in the
single-video directory the folder-level `poster.jpg` is attached. -/
theorem claim_C8_witness :
    stemRule (MediaFile.mk "/m/poster.mkv") (MediaFile.mk "/m/poster.jpg") ∧
    MediaFile.mk "/m/poster.jpg" ∈ c8group1.sidecars :=
  ⟨claim_C8.1 ["/m/poster.mkv", "/m/B.mkv", "/m/poster.jpg"]
      DEFAULT_VIDEO_EXTS DEFAULT_SIDECAR_EXTS c8group
      (MediaFile.mk "/m/poster.mkv") (MediaFile.mk "/m/poster.jpg")
      (by decide) (by decide) (by decide) (by decide),
    claim_C8.2.1 ["/m/Movie.mkv", "/m/Movie.en.srt", "/m/Movie.nfo", "/m/poster.jpg"]
      DEFAULT_VIDEO_EXTS DEFAULT_SIDECAR_EXTS c8group1
      (MediaFile.mk "/m/Movie.mkv") (MediaFile.mk "/m/poster.jpg")
      (by decide) (by decide) (by decide) (by decide) (by decide) (by decide)
      (by decide)⟩

/-! ### NFO parsing — `src/jfo/core/nfo.py`

The XML text is turned into an element tree by `xml.etree.ElementTree`
(standard library, outside this repository); `parse_nfo` is embedded
from the point where the parsed root element is available.  An element
has a tag, optional text, and direct children; `Element.find(tag)`
returns the first direct child with the given tag. -/

/-- A parsed XML element. -/
inductive XmlElem where
  | mk (tag : String) (text : Option String) (children : List XmlElem)

/-- The element's tag. -/
def XmlElem.tag : XmlElem → String
  | .mk t _ _ => t

/-- The element's text. -/
def XmlElem.text : XmlElem → Option String
  | .mk _ x _ => x

/-- The element's direct children. -/
def XmlElem.children : XmlElem → List XmlElem
  | .mk _ _ c => c

/-- `root.find(tag)`: first direct child with the tag. -/
def findChild (root : XmlElem) (tag : String) : Option XmlElem :=
  root.children.find? (fun el => el.tag == tag)

/-- `_text(root, tag)`: the child's stripped text, empty → absent. -/
def elemText (root : XmlElem) (tag : String) : Option String :=
  match findChild root tag with
  | none => none
  | some el =>
    match el.text with
    | none => none
    | some t =>
      let t' := pyStrip t
      if t' = "" then none else some t'

/-- The result record of `parse_nfo` (`NfoInfo`). -/
structure NfoInfo where
  title : Option String
  original_title : Option String
  year : Option Nat
  imdbid : Option String
deriving DecidableEq, Repr

/-- `re.findall(r"\d{4}", s)[0]`: the first run of four digits. -/
def findFourDigits : List Char → Option (List Char)
  | [] => none
  | c1 :: rest =>
    match rest with
    | c2 :: c3 :: c4 :: _ =>
      if c1.isDigit && c2.isDigit && c3.isDigit && c4.isDigit then
        some [c1, c2, c3, c4]
      else findFourDigits rest
    | _ => none

/-- Numeric value of a digit string (`int`). -/
def digitsVal (l : List Char) : Nat :=
  l.foldl (fun n c => n * 10 + (c.toNat - '0'.toNat)) 0

/-- Python `\w` (ASCII subset). -/
def wordChar (c : Char) : Bool :=
  c.isAlphanum || c = '_'

/-- `re.search(r"\b(19\d{2}|20\d{2})\b", s)`: scan for the first
word-bounded `19xx`/`20xx`. -/
def scanYear (prev : Option Char) : List Char → Option Nat
  | [] => none
  | c1 :: rest =>
    let boundaryL : Bool := match prev with
      | none => true
      | some p => ¬ wordChar p
    match rest with
    | c2 :: c3 :: c4 :: rest4 =>
      let boundaryR : Bool := match rest4 with
        | [] => true
        | d :: _ => ¬ wordChar d
      if boundaryL && ((c1 = '1' && c2 = '9') || (c1 = '2' && c2 = '0')) &&
          c3.isDigit && c4.isDigit && boundaryR then
        some (digitsVal [c1, c2, c3, c4])
      else scanYear (some c1) rest
    | _ => scanYear (some c1) rest

/-- `_IMDB_RE.search` (`tt\d{3,10}`, leftmost match, greedy digits):
try a match at the current position, else advance one character. -/
def ttScan : List Char → Option (List Char)
  | [] => none
  | c :: cs =>
    if c = 't' then
      match cs with
      | [] => none
      | d :: ds =>
        if d = 't' then
          let digs := (ds.takeWhile Char.isDigit).take 10
          if 3 ≤ digs.length then some ('t' :: 't' :: digs) else ttScan cs
        else ttScan cs
    else ttScan cs

/-- `_IMDB_RE.search(s)` returning the matched text. -/
def imdbSearch (s : String) : Option String :=
  (ttScan s.toList).map String.mk

/-- Python `a or b` on optional strings (`""` is falsy). -/
def pyOrOpt (a b : Option String) : Option String :=
  match a with
  | some s => if s = "" then b else some s
  | none => b

/-- The year-fallback loop over `premiered`/`releasedate`/`released`/
`dateadded`: first field with text containing a word-bounded year. -/
def yearFallbackAux (root : XmlElem) : List String → Option Nat
  | [] => none
  | t :: ts =>
    match elemText root t with
    | none => yearFallbackAux root ts
    | some v =>
      match scanYear none v.toList with
      | some y => some y
      | none => yearFallbackAux root ts

/-- `parse_nfo` from the parsed element onward (the `<root>` wrapper
unwrapping, field extraction and fallbacks). -/
def parse_nfo_tree (root0 : XmlElem) : NfoInfo :=
  let root :=
    if root0.tag = "root" then
      match root0.children.find? (fun child =>
          child.tag == "movie" || child.tag == "tvshow" ||
          child.tag == "episodedetails") with
      | some child => child
      | none => root0
    else root0
  let title := elemText root "title"
  let original_title := elemText root "originaltitle"
  let year0 : Option Nat :=
    match elemText root "year" with
    | some yr => (findFourDigits yr.toList).map digitsVal
    | none => none
  let year :=
    match year0 with
    | some y => some y
    | none => yearFallbackAux root ["premiered", "releasedate", "released", "dateadded"]
  let imdb_raw :=
    pyOrOpt (elemText root "imdbid")
      (pyOrOpt (elemText root "imdb_id")
        (pyOrOpt (elemText root "imdb")
          (pyOrOpt (elemText root "id") (elemText root "uniqueid"))))
  let imdbid :=
    match imdb_raw with
    | some raw => imdbSearch raw
    | none => none
  { title := title, original_title := original_title, year := year, imdbid := imdbid }

/-- The claim's identifier-field priority order. -/
def imdbFieldOrder : List String := ["imdbid", "imdb_id", "imdb", "id", "uniqueid"]

/-- First field in the list with a non-empty text. -/
def firstNonEmptyField (root : XmlElem) : List String → Option String
  | [] => none
  | t :: ts =>
    match elemText root t with
    | some v => some v
    | none => firstNonEmptyField root ts

/-- The claim's description of the identifier extraction: apply the
`tt\d{3,10}` pattern to the first non-empty candidate field. -/
def claimImdbExtract (root : XmlElem) : Option String :=
  match firstNonEmptyField root imdbFieldOrder with
  | some raw => imdbSearch raw
  | none => none

/-- `_text` never returns an empty string. -/
theorem elemText_ne_some_empty (root : XmlElem) (t : String) :
    elemText root t ≠ some "" := by
  intro hcontra
  rw [elemText] at hcontra
  split at hcontra
  · exact Option.noConfusion hcontra
  · split at hcontra
    · exact Option.noConfusion hcontra
    · simp only [] at hcontra
      split at hcontra
      · exact Option.noConfusion hcontra
      · rename_i h0
        exact h0 (Option.some.inj hcontra)

/-- `pyOrOpt` applied to a `_text` result keeps a present value. -/
theorem pyOrOpt_elemText (root : XmlElem) (t : String) (b : Option String) :
    pyOrOpt (elemText root t) b =
      match elemText root t with
      | some v => some v
      | none => b := by
  cases h : elemText root t with
  | none => rfl
  | some v =>
    have hne : v ≠ "" := fun he => elemText_ne_some_empty root t (he ▸ h)
    simp [pyOrOpt, hne]

/-- On a non-wrapper root, the extracted identifier is exactly the
claim's priority-ordered extraction. -/
theorem parse_nfo_tree_imdb (root : XmlElem) (h : root.tag ≠ "root") :
    (parse_nfo_tree root).imdbid = claimImdbExtract root := by
  rw [parse_nfo_tree]
  simp only [if_neg h]
  rw [claimImdbExtract, imdbFieldOrder]
  rw [firstNonEmptyField, pyOrOpt_elemText]
  cases elemText root "imdbid" with
  | some v => rfl
  | none =>
    rw [firstNonEmptyField, pyOrOpt_elemText]
    cases elemText root "imdb_id" with
    | some v => rfl
    | none =>
      rw [firstNonEmptyField, pyOrOpt_elemText]
      cases elemText root "imdb" with
      | some v => rfl
      | none =>
        rw [firstNonEmptyField, pyOrOpt_elemText]
        cases elemText root "id" with
        | some v => rfl
        | none =>
          rw [firstNonEmptyField]
          cases elemText root "uniqueid" with
          | some v => rfl
          | none => rfl

/-- A first non-empty field comes from one of the listed fields. -/
theorem firstNonEmptyField_mem (root : XmlElem) : ∀ (ts : List String) (raw : String),
    firstNonEmptyField root ts = some raw → ∃ t ∈ ts, elemText root t = some raw := by
  intro ts
  induction ts with
  | nil => intro raw h; exact Option.noConfusion h
  | cons t ts' ih =>
    intro raw h
    rw [firstNonEmptyField] at h
    cases he : elemText root t with
    | some v =>
      rw [he] at h
      exact ⟨t, List.mem_cons_self t ts', he.trans (congrArg some (Option.some.inj h))⟩
    | none =>
      rw [he] at h
      obtain ⟨t', ht', he'⟩ := ih raw h
      exact ⟨t', List.mem_cons_of_mem t ht', he'⟩

/-- The movie document of the claim's concrete example: `<id>` holds the
identifier and there is no `<imdbid>`. -/
def c9doc : XmlElem :=
  .mk "movie" none
    [.mk "title" (some "Alien") [], .mk "year" (some "1979") [],
     .mk "id" (some "tt0078748") []]

/-- A document whose only identifier field does not match the pattern. -/
def c9docNoMatch : XmlElem :=
  .mk "movie" none [.mk "imdbid" (some "garbage") []]

/-- C9 (confirmed): the identifier is extracted by examining `imdbid`,
`imdb_id`, `imdb`, `id`, `uniqueid` in priority order and applying
`tt\d{3,10}` to the first non-empty candidate; no match in any field
yields an absent identifier; `<id>tt0078748</id>` without `<imdbid>`
yields `"tt0078748"`. -/
theorem claim_C9 :
    (∀ root : XmlElem, root.tag ≠ "root" →
      (parse_nfo_tree root).imdbid = claimImdbExtract root) ∧
    (parse_nfo_tree c9doc).imdbid = some "tt0078748" ∧
    (∀ root : XmlElem, root.tag ≠ "root" →
      (imdbFieldOrder.all (fun t =>
        match elemText root t with
        | some s => (imdbSearch s).isNone
        | none => true)) = true →
      (parse_nfo_tree root).imdbid = none) := by
  refine ⟨parse_nfo_tree_imdb, by decide, ?_⟩
  intro root h hall
  rw [parse_nfo_tree_imdb root h, claimImdbExtract]
  cases hf : firstNonEmptyField root imdbFieldOrder with
  | none => rfl
  | some raw =>
    obtain ⟨t, ht, he⟩ := firstNonEmptyField_mem root imdbFieldOrder raw hf
    have := List.all_eq_true.mp hall t ht
    rw [he] at this
    simp only [Option.isNone_iff_eq_none] at this
    exact this

/-- C9 witness: concrete applications of `claim_C9` — a non-matching
field yields an absent identifier, and the extraction agrees with the
priority-ordered specification on the example document. -/
theorem claim_C9_witness :
    (parse_nfo_tree c9docNoMatch).imdbid = none ∧
    (parse_nfo_tree c9doc).imdbid = claimImdbExtract c9doc :=
  ⟨claim_C9.2.2 c9docNoMatch (by decide) (by decide),
    claim_C9.1 c9doc (by decide)⟩

/-! ### SQLite index updater — `src/jfo/infra/index_update.py`

The `files` table is modelled as a row list (`path` is the primary
key); the SQL statements become list transformations.  SQLite `LIKE` is
case-insensitive on ASCII and treats `%`/`_` as wildcards; SQLite
`REPLACE(x, y, z)` replaces every (left-to-right, non-overlapping)
occurrence of `y`, and `UPDATE`'s reported rowcount is the number of
rows processed by the `WHERE` clause. -/

/-- One row of the `files` table. -/
structure Row where
  path : String
  dir : String
  name : String
  ext : String
  root : String
  scanned_at : Nat
deriving DecidableEq, Repr

/-- The `IndexUpdateStats` dataclass. -/
structure IndexUpdateStats where
  inserted : Nat := 0
  deleted : Nat := 0
  updated_prefix : Nat := 0
deriving DecidableEq, Repr

/-- SQLite `LIKE` with fuel (the fuel only drives structural recursion;
`likeMatch` below supplies an amount that can never run out because
each step consumes pattern or text). -/
def likeMatchFuel : Nat → List Char → List Char → Bool
  | 0, _, _ => false
  | _ + 1, [], t => t.isEmpty
  | fuel + 1, p :: ps, t =>
    if p = '%' then
      likeMatchFuel fuel ps t ||
        (match t with
         | [] => false
         | _ :: ts => likeMatchFuel fuel ('%' :: ps) ts)
    else
      match t with
      | [] => false
      | c :: ts =>
        if p = '_' then likeMatchFuel fuel ps ts
        else (p.toLower = c.toLower) && likeMatchFuel fuel ps ts

/-- SQLite `LIKE` (ASCII case-insensitive, `%`/`_` wildcards). -/
def likeMatch (pattern text : List Char) : Bool :=
  likeMatchFuel (pattern.length + text.length + 1) pattern text

/-- SQLite `REPLACE` with fuel (each step consumes at least one input
character, so `s.length` fuel suffices for a nonempty pattern). -/
def sqlReplaceFuel (pat rep : List Char) : Nat → List Char → List Char
  | 0, s => s
  | fuel + 1, s =>
    match s with
    | [] => []
    | c :: cs =>
      if pat.isPrefixOf s then rep ++ sqlReplaceFuel pat rep fuel (s.drop pat.length)
      else c :: sqlReplaceFuel pat rep fuel cs

/-- SQLite `REPLACE(s, pat, rep)` (empty pattern returns `s`). -/
def sqlReplace (s pat rep : List Char) : List Char :=
  if pat = [] then s else sqlReplaceFuel pat rep s.length s

/-- Split a character list at the last occurrence of `sep`
(`str.rsplit(sep, 1)` when it returns two pieces). -/
def rsplit1 (sep : Char) : List Char → Option (List Char × List Char)
  | [] => none
  | c :: cs =>
    match rsplit1 sep cs with
    | some (a, b) => some (c :: a, b)
    | none => if c = sep then some ([], cs) else none

/-- The lowercased extension of a file name (`_split_remote_path`). -/
def extOfName (n : List Char) : String :=
  if '.' ∈ n then
    match rsplit1 '.' n with
    | some (_, e) => String.mk (e.map Char.toLower)
    | none => ""
  else ""

/-- `_split_remote_path(path) -> (dir, name, ext)`. -/
def split_remote_path (path : String) : String × String × String :=
  match rsplit1 '/' path.toList with
  | none => ("/", path, extOfName path.toList)
  | some (d, n) =>
    ((if d = [] then "/" else String.mk d), String.mk n, extOfName n)

/-- Strip all trailing slashes. -/
def rstripSlash (l : List Char) : List Char :=
  (l.reverse.dropWhile (fun c => c = '/')).reverse

/-- `_normalize_root_marker(root)`. -/
def normalize_root_marker (root : String) : String :=
  let r := rstripSlash (pxStr root.toList)
  if r = [] then "/" else String.mk r

/-- `_pick_root_for_path(path, roots)`: first root whose normalized
marker equals the path or prefixes it at a slash boundary. -/
def pick_root_for_path (path : String) (roots : List String) : Option String :=
  let p := pxStr path.toList
  roots.find? (fun r =>
    let rr := (normalize_root_marker r).toList
    p == rr || (rr ++ ['/']).isPrefixOf p)

/-- Stable descending insertion by normalized-marker length
(`roots.sort(key=..., reverse=True)` is stable). -/
def rootInsertDesc (x : String) : List String → List String
  | [] => [x]
  | y :: ys =>
    if (normalize_root_marker x).toList.length ≤
        (normalize_root_marker y).toList.length then
      y :: rootInsertDesc x ys
    else x :: y :: ys

/-- Root-marker assembly: DB roots, then unseen truthy hints, sorted by
normalized length descending (stable). -/
def mergeRoots (dbRoots roots_hint : List String) : List String :=
  let roots := roots_hint.foldl
    (fun acc r => if r ≠ "" ∧ r ∉ acc then acc ++ [r] else acc) dbRoots
  roots.foldl (fun acc x => rootInsertDesc x acc) []

/-- The upsert statement (`INSERT ... ON CONFLICT(path) DO UPDATE`). -/
def upsertRow (table : List Row) (p d n e r : String) (ts : Nat) : List Row :=
  if table.any (fun row => row.path == p) then
    table.map (fun row =>
      if row.path == p then
        { row with dir := d, name := n, ext := e, root := r, scanned_at := ts }
      else row)
  else table ++ [{ path := p, dir := d, name := n, ext := e, root := r, scanned_at := ts }]

/-- The per-operation body of the `apply_plan_to_index` loop. -/
def opApplyIndex (roots : List String) (ts : Nat)
    (st : List Row × IndexUpdateStats) (op : Operation) :
    List Row × IndexUpdateStats :=
  let table := st.1
  let stats := st.2
  if op.kind = .move ∨ op.kind = .rename then
    if ¬ (truthyOpt op.src && truthyOpt op.dst) = true then (table, stats)
    else
      let src := pyOrStr op.src
      let dst := pyOrStr op.dst
      match table.find? (fun row => row.path == src) with
      | some row =>
        -- 1) src is a known file path: delete it, insert the destination
        let old_root := row.root
        let table1 := table.filter (fun r => !(r.path == src))
        let root_for_dst := (pick_root_for_path dst roots).getD old_root
        let dne := split_remote_path dst
        let table2 := upsertRow table1 dst dne.1 dne.2.1 dne.2.2 root_for_dst ts
        (table2, { stats with deleted := stats.deleted + 1, inserted := stats.inserted + 1 })
      | none =>
        -- 2) directory rename: rewrite the prefix of all contained rows
        let src_dir := String.mk (rstripSlash (pxStr src.toList))
        let dst_dir := String.mk (rstripSlash (pxStr dst.toList))
        if src_dir ≠ "" ∧ dst_dir ≠ "" ∧ src_dir ≠ dst_dir then
          let src_prefix := src_dir ++ "/"
          let dst_prefix := dst_dir ++ "/"
          let pat := src_prefix.toList ++ ['%']
          if table.any (fun r => likeMatch pat r.path.toList) then
            let matched := table.countP (fun r => likeMatch pat r.path.toList)
            let table1 := table.map (fun r =>
              if likeMatch pat r.path.toList then
                { r with
                  path := String.mk
                    (sqlReplace r.path.toList src_prefix.toList dst_prefix.toList),
                  dir := if r.dir = src_dir then dst_dir
                    else String.mk
                      (sqlReplace r.dir.toList src_prefix.toList dst_prefix.toList),
                  scanned_at := ts }
              else r)
            (table1, { stats with updated_prefix := stats.updated_prefix + matched })
          else (table, stats)
        else (table, stats)
  else if op.kind = .copy ∨ op.kind = .link then
    if ¬ (truthyOpt op.dst = true) then (table, stats)
    else
      let dst := pyOrStr op.dst
      let r1 := pick_root_for_path dst roots
      let r2 := if truthyOpt op.src then pick_root_for_path (pyOrStr op.src) roots
        else none
      let root_for_dst := pyOrStr (pyOrOpt r1 r2)
      let dne := split_remote_path dst
      (upsertRow table dst dne.1 dne.2.1 dne.2.2 root_for_dst ts,
       { stats with inserted := stats.inserted + 1 })
  else
    -- MKDIR does not affect the file index.
    (table, stats)

/-- `apply_plan_to_index(plan, roots_hint=...)` over an explicit table
state, DB root markers and timestamp (the database connection and clock
are external). -/
def apply_plan_to_index (table : List Row) (dbRoots roots_hint : List String)
    (ts : Nat) (plan : Plan) : List Row × IndexUpdateStats :=
  let roots := mergeRoots dbRoots roots_hint
  (plan.operations.filter (fun o => o.selected)).foldl (opApplyIndex roots ts)
    (table, { inserted := 0, deleted := 0, updated_prefix := 0 })

/-- A catalog row whose path contains the moved directory's prefix
string twice: once as the leading prefix and once in the interior. -/
def c6row : Row :=
  { path := "/r/Old/x/r/Old/f.mkv", dir := "/r/Old/x/r/Old", name := "f.mkv",
    ext := "mkv", root := "/r", scanned_at := 0 }

/-- A plan moving the directory `/r/Old` to `/r/New` (the source is not
itself a file row). -/
def c6plan : Plan :=
  { title := "t",
    operations := [{ kind := .move, src := some "/r/Old", dst := some "/r/New" }] }

/-- C6 (code bug, evaluated at the failing input): the row is under the
source prefix, but the `REPLACE`-based update rewrites *every*
occurrence of `"/r/Old/"`, producing `/r/New/x/r/New/f.mkv` instead of
the literal prefix substitution `/r/New/x/r/Old/f.mkv` the claim (and
the module's own "prefix rewrite" documentation) describe — and leaves
the `dir` column (`/r/New/x/r/Old`) inconsistent with the new path.
`updated_prefix`/`inserted`/`deleted` are as claimed. -/
theorem claim_C6 :
    apply_plan_to_index [c6row] [] [] 5 c6plan =
      ([{ path := "/r/New/x/r/New/f.mkv", dir := "/r/New/x/r/Old",
          name := "f.mkv", ext := "mkv", root := "/r", scanned_at := 5 }],
       { inserted := 0, deleted := 0, updated_prefix := 1 }) ∧
    "/r/Old/".toList.isPrefixOf c6row.path.toList = true ∧
    String.mk (sqlReplace c6row.path.toList "/r/Old/".toList "/r/New/".toList) ≠
      "/r/New/x/r/Old/f.mkv" := by
  refine ⟨?_, ?_, ?_⟩
  · decide
  · decide
  · decide

end JFO

